import Mathlib

/-!
Shallow embedding of `src/TreeRegressor.cpp` (the `boosting` tree regressor).

Conventions of the embedding:
* C++ `double` is modelled as `ℚ` (exact field arithmetic; the algorithms
  only add, subtract, multiply, divide and compare).
* C++ `int` is modelled as `ℤ` where a sentinel (`-1`) or a possibly negative
  difference matters, `ℕ` elsewhere; `uint16_t` conversion is modulo `2^16`.
* `rand()` is modelled as an explicit stream `rng : ℕ → ℕ` together with a
  cursor position that each call advances, plus a `randMax` parameter.
* A failing `CHECK(...)` (glog abort) and C++ undefined behaviour
  (out-of-bounds indexing) are modelled as `none` / a `fail` result.
* External collaborators that are declared in headers not present in the
  repository (`boosting::split`, `GbmFun::getLeafVal`, the `DataSet` layout)
  are modelled from the specification; their doc comments say so.
-/

namespace Boosting

/-- Feature encodings of the dataset (`EMPTY`, `BYTE`, `SHORT` in `DataSet.h`).
Modelled from the spec: the encoded dataset representation is an external
collaborator; a feature is narrow (byte codes), wide (short codes) or empty. -/
inductive Encoding where
  | EMPTY : Encoding
  | BYTE : Encoding
  | SHORT : Encoding
deriving DecidableEq, Repr, Inhabited

/-- One encoded feature column. Modelled from the spec: per-feature encoded
values (`bvec` for narrow, `svec` for wide codes, stored as `ℕ`) plus the
ordered list of bin-boundary values (`transitions`, only its length matters to
the core). -/
structure Feature where
  encoding : Encoding
  transitions : List ℚ
  bvec : List ℕ
  svec : List ℕ
deriving DecidableEq, Repr, Inhabited

/-- The per-row bin codes a feature actually stores: `bvec` for `BYTE`,
`svec` for `SHORT`; an `EMPTY` feature stores no codes. -/
def featValsOf (f : Feature) : List ℕ :=
  match f.encoding with
  | Encoding.BYTE => f.bvec
  | Encoding.SHORT => f.svec
  | Encoding.EMPTY => []

/-- The execution context of one `TreeRegressor`: the dataset (`ds_`), the
target vector (`y_`), the objective (`fun_`, modelled from the spec as an
abstract leaf-value function), the `min_leaf_examples` flag, and the random
source (`RAND_MAX` plus the stream of `rand()` outputs). -/
structure Ctx where
  features : List Feature
  numExamples : ℕ
  y : ℕ → ℚ
  leafVal : List ℕ → (ℕ → ℚ) → ℚ
  minLeaf : ℕ
  randMax : ℕ
  rng : ℕ → ℕ

/-- `biasedCoinFlip(probabilityOfTrue)`: true iff `rand() < p * RAND_MAX`.
The draw `randVal` is the current `rand()` output. -/
def biasedCoinFlip (randMax randVal : ℕ) (p : ℚ) : Bool :=
  decide ((randVal : ℚ) < p * (randMax : ℚ))

/-- `TreeRegressor::Histogram`: per-bin counts and target sums plus the
subset's total count and total target sum (set at construction). -/
structure Histogram where
  cnt : List ℕ
  sumy : List ℚ
  totalCnt : ℕ
  totalSum : ℚ
deriving DecidableEq, Repr

/-- `hist.num`: the number of bins. -/
def Histogram.num (h : Histogram) : ℕ := h.cnt.length

/-- `Histogram(num, totalCnt, totalSum)`: zeroed bins. -/
def emptyHistogram (num totalCnt : ℕ) (totalSum : ℚ) : Histogram :=
  ⟨List.replicate num 0, List.replicate num 0, totalCnt, totalSum⟩

/-- One row's update in `buildHistogram`: bump the count of the row's bin and
add its target value to the bin's sum. -/
def bumpHist (y : ℕ → ℚ) (vals : List ℕ) (h : Histogram) (id : ℕ) : Histogram :=
  { h with cnt := h.cnt.set (vals.getD id 0) (h.cnt.getD (vals.getD id 0) 0 + 1),
           sumy := h.sumy.set (vals.getD id 0) (h.sumy.getD (vals.getD id 0) 0 + y id) }

/-- `buildHistogram<T>(subset, vals, hist)`: for each row of the subset, bump
the count of the row's bin and add its target value to the bin's sum. -/
def buildHistogram (y : ℕ → ℚ) (subset : List ℕ) (vals : List ℕ)
    (h : Histogram) : Histogram :=
  subset.foldl (bumpHist y vals) h

/-- `lossBefore` in `getBestSplitFromHistogram`: the loss of not splitting,
`-totalSum^2 / totalCnt`. -/
def lossBefore (h : Histogram) : ℚ :=
  -1 * h.totalSum * h.totalSum / (h.totalCnt : ℚ)

/-- The scan loop of `getBestSplitFromHistogram`: `bins` are the remaining
`(cnt[i], sumy[i])` pairs of boundary indices `i, i+1, ...`; `cntLeft`,
`sumLeft` accumulate bins `0..i-1`; `(bestIdx, bestGain)` is the best found
so far.  `continue` on a too-small left side, `break` on a too-small right
side, update the best on a strictly larger gain. -/
def gbsLoop (minLeaf totalCnt : ℕ) (totalSum lossB : ℚ) :
    List (ℕ × ℚ) → ℕ → ℕ → ℚ → ℤ → ℚ → ℤ × ℚ
  | [], _, _, _, bestIdx, bestGain => (bestIdx, bestGain)
  | (c, s) :: bins, i, cntLeft0, sumLeft0, bestIdx, bestGain =>
    let cntLeft := cntLeft0 + c
    let sumLeft := sumLeft0 + s
    let sumRight := totalSum - sumLeft
    let cntRight : ℤ := (totalCnt : ℤ) - (cntLeft : ℤ)
    if cntLeft < minLeaf then
      gbsLoop minLeaf totalCnt totalSum lossB bins (i + 1) cntLeft sumLeft bestIdx bestGain
    else if cntRight < (minLeaf : ℤ) then
      (bestIdx, bestGain)
    else
      let lossAfter : ℚ :=
        -1 * sumLeft * sumLeft / (cntLeft : ℚ) - 1 * sumRight * sumRight / (cntRight : ℚ)
      let gain := lossB - lossAfter
      if bestGain < gain then
        gbsLoop minLeaf totalCnt totalSum lossB bins (i + 1) cntLeft sumLeft (i : ℤ) gain
      else
        gbsLoop minLeaf totalCnt totalSum lossB bins (i + 1) cntLeft sumLeft bestIdx bestGain

/-- The boundary bins the evaluator scans: `(cnt[i], sumy[i])` for
`i = 0 .. num - 2`. -/
def zsOf (h : Histogram) : List (ℕ × ℚ) := (h.cnt.zip h.sumy).take (h.num - 1)

/-- `TreeRegressor::getBestSplitFromHistogram`: returns `(bestIdx, bestGain)`;
`bestIdx = -1` and `bestGain = 0` when no boundary index admits a positive-gain
split with both sides at least `min_leaf_examples` large.  (The code `CHECK`s
`hist.num >= 1`; that precondition is a hypothesis of the theorems.) -/
def getBestSplitFromHistogram (minLeaf : ℕ) (h : Histogram) : ℤ × ℚ :=
  gbsLoop minLeaf h.totalCnt h.totalSum (lossBefore h) (zsOf h) 0 0 0 (-1) 0

/-- The same scan with the `break` on a too-small right side replaced by a
`continue`, i.e. scanning all boundary indices.  Used to state that the early
break does not change the result. -/
def gbsLoopNB (minLeaf totalCnt : ℕ) (totalSum lossB : ℚ) :
    List (ℕ × ℚ) → ℕ → ℕ → ℚ → ℤ → ℚ → ℤ × ℚ
  | [], _, _, _, bestIdx, bestGain => (bestIdx, bestGain)
  | (c, s) :: bins, i, cntLeft0, sumLeft0, bestIdx, bestGain =>
    let cntLeft := cntLeft0 + c
    let sumLeft := sumLeft0 + s
    let sumRight := totalSum - sumLeft
    let cntRight : ℤ := (totalCnt : ℤ) - (cntLeft : ℤ)
    if cntLeft < minLeaf then
      gbsLoopNB minLeaf totalCnt totalSum lossB bins (i + 1) cntLeft sumLeft bestIdx bestGain
    else if cntRight < (minLeaf : ℤ) then
      gbsLoopNB minLeaf totalCnt totalSum lossB bins (i + 1) cntLeft sumLeft bestIdx bestGain
    else
      let lossAfter : ℚ :=
        -1 * sumLeft * sumLeft / (cntLeft : ℚ) - 1 * sumRight * sumRight / (cntRight : ℚ)
      let gain := lossB - lossAfter
      if bestGain < gain then
        gbsLoopNB minLeaf totalCnt totalSum lossB bins (i + 1) cntLeft sumLeft (i : ℤ) gain
      else
        gbsLoopNB minLeaf totalCnt totalSum lossB bins (i + 1) cntLeft sumLeft bestIdx bestGain

/-- The full-scan (no early break) variant of the evaluator. -/
def getBestSplitFromHistogramNB (minLeaf : ℕ) (h : Histogram) : ℤ × ℚ :=
  gbsLoopNB minLeaf h.totalCnt h.totalSum (lossBefore h) (zsOf h) 0 0 0 (-1) 0

/-- Cumulative bin count of bins `0..p-1`. -/
def pCnt (h : Histogram) (p : ℕ) : ℕ := (h.cnt.take p).sum

/-- Cumulative bin target sum of bins `0..p-1`. -/
def pSum (h : Histogram) (p : ℕ) : ℚ := (h.sumy.take p).sum

/-- `cntLeft` at boundary index `i`: rows in bins `0..i` inclusive. -/
def cntLeftAt (h : Histogram) (i : ℕ) : ℕ := pCnt h (i + 1)

/-- `sumLeft` at boundary index `i`: target sum of bins `0..i` inclusive. -/
def sumLeftAt (h : Histogram) (i : ℕ) : ℚ := pSum h (i + 1)

/-- Boundary index `i` is eligible: it is a real boundary (`i ≤ num - 2`) and
both sides hold at least `min_leaf_examples` rows. -/
def ValidSplitIdx (minLeaf : ℕ) (h : Histogram) (i : ℕ) : Prop :=
  i + 1 < h.num ∧ minLeaf ≤ cntLeftAt h i ∧
    (minLeaf : ℤ) ≤ (h.totalCnt : ℤ) - (cntLeftAt h i : ℤ)

instance (minLeaf : ℕ) (h : Histogram) (i : ℕ) : Decidable (ValidSplitIdx minLeaf h i) :=
  inferInstanceAs (Decidable (_ ∧ _ ∧ _))

/-- `lossAfter` at boundary index `i`. -/
def lossAfterAt (h : Histogram) (i : ℕ) : ℚ :=
  -1 * sumLeftAt h i * sumLeftAt h i / (cntLeftAt h i : ℚ)
    - 1 * (h.totalSum - sumLeftAt h i) * (h.totalSum - sumLeftAt h i)
        / (((h.totalCnt : ℤ) - (cntLeftAt h i : ℤ) : ℤ) : ℚ)

/-- `gain` at boundary index `i`: `lossBefore - lossAfter(i)`. -/
def gainAt (h : Histogram) (i : ℕ) : ℚ := lossBefore h - lossAfterAt h i

/-- What the evaluator's scan has established after the boundary indices
`< p` have been processed, the best so far being `(bi, bg)`. -/
def BestSoFar (minLeaf : ℕ) (h : Histogram) (p : ℕ) (bi : ℤ) (bg : ℚ) : Prop :=
  (bi = -1 ∧ bg = 0 ∧ ∀ k, k < p → ValidSplitIdx minLeaf h k → gainAt h k ≤ 0)
  ∨ (∃ j : ℕ, bi = (j : ℤ) ∧ j < p ∧ ValidSplitIdx minLeaf h j ∧ gainAt h j = bg ∧
      0 < bg ∧ (∀ k, k < p → ValidSplitIdx minLeaf h k → gainAt h k ≤ bg) ∧
      (∀ k, k < j → ValidSplitIdx minLeaf h k → gainAt h k < bg))

/-- Characterization of the evaluator's result: either no eligible boundary
index has positive gain and the result is the sentinel `(-1, 0)`, or the
result is the earliest eligible index attaining the (positive) maximal gain. -/
def EvalChar (minLeaf : ℕ) (h : Histogram) (r : ℤ × ℚ) : Prop :=
  (r = (-1, 0) ∧ ∀ k, ValidSplitIdx minLeaf h k → gainAt h k ≤ 0)
  ∨ (∃ j : ℕ, r = ((j : ℤ), gainAt h j) ∧ ValidSplitIdx minLeaf h j ∧
      0 < gainAt h j ∧ (∀ k, ValidSplitIdx minLeaf h k → gainAt h k ≤ gainAt h j) ∧
      (∀ k, k < j → ValidSplitIdx minLeaf h k → gainAt h k < gainAt h j))

/-! ### The split-node arena, frontier and growth loop -/

/-- `TreeRegressor::SplitNode`: the owned subset, chosen feature (`-1` = none),
chosen bin threshold `fv` (a `uint16_t`), the gain, the selected flag and the
two children (arena indices; nodes are appended in creation order, so an index
stands for the C++ pointer). -/
structure SplitNode where
  subset : List ℕ
  fid : ℤ
  fv : ℕ
  gain : ℚ
  selected : Bool
  left : Option ℕ
  right : Option ℕ
deriving DecidableEq, Repr, Inhabited

/-- The grower's mutable members: `allSplits_` (the arena) and `frontiers_`
(arena indices of the unexpanded candidates, in push order). -/
structure GrowState where
  arena : List SplitNode
  frontier : List ℕ
deriving DecidableEq, Repr

/-- C++ `int` → `uint16_t` conversion (modulo `2^16`), used when the chosen
boundary index is stored into `SplitNode::fv`. -/
def toUInt16 (z : ℤ) : ℕ := (z % 65536).toNat

/-- The histogram `getBestSplit` builds for one sampled feature: full bin count
`transitions.size() + 1`, total count = subset size, plus the subset's target
sum, filled by `buildHistogram`. -/
def histFor (ctx : Ctx) (f : Feature) (subset : List ℕ) (totalSum : ℚ) : Histogram :=
  buildHistogram ctx.y subset (featValsOf f)
    (emptyHistogram (f.transitions.length + 1) subset.length totalSum)

/-- The per-feature loop of `getBestSplit`: skip empty-encoded features (no
random draw), skip unsampled features (one draw), otherwise build the histogram,
evaluate it, and keep the strictly best `(fid, fv, gain)`.  Returns the final
accumulator and the advanced random cursor. -/
def scanFeatures (ctx : Ctx) (rate : ℚ) (subset : List ℕ) (totalSum : ℚ) :
    List Feature → ℕ → ℕ → (ℤ × ℤ × ℚ) → ((ℤ × ℤ × ℚ) × ℕ)
  | [], _, pos, acc => (acc, pos)
  | f :: rest, fid, pos, acc =>
    if f.encoding = Encoding.EMPTY then
      scanFeatures ctx rate subset totalSum rest (fid + 1) pos acc
    else if biasedCoinFlip ctx.randMax (ctx.rng pos) rate = false then
      scanFeatures ctx rate subset totalSum rest (fid + 1) (pos + 1) acc
    else
      let r := getBestSplitFromHistogram ctx.minLeaf (histFor ctx f subset totalSum)
      if acc.2.2 < r.2 then
        scanFeatures ctx rate subset totalSum rest (fid + 1) (pos + 1) ((fid : ℤ), r.1, r.2)
      else
        scanFeatures ctx rate subset totalSum rest (fid + 1) (pos + 1) acc

/-- `TreeRegressor::getBestSplit(subset, featureSamplingRate, terminal)`:
create a split node owning `subset`.  A terminal node is appended to the arena
untouched (fields at their constructor values) and not put on the frontier;
otherwise the feature scan fills `(fid, fv, gain)` and the node is appended to
both the arena and the frontier.  Returns (state, index of the new node,
advanced random cursor). -/
def getBestSplit (ctx : Ctx) (rate : ℚ) (terminal : Bool) (subset : List ℕ)
    (st : GrowState) (pos : ℕ) : GrowState × ℕ × ℕ :=
  if terminal then
    (⟨st.arena ++ [⟨subset, -1, 0, 0, false, none, none⟩], st.frontier⟩, st.arena.length, pos)
  else
    let totalSum := subset.foldl (fun a id => a + ctx.y id) 0
    let r := scanFeatures ctx rate subset totalSum ctx.features 0 pos (-1, 0, 0)
    (⟨st.arena ++ [⟨subset, r.1.1, toUInt16 r.1.2.1, r.1.2.2, false, none, none⟩],
      st.frontier ++ [st.arena.length]⟩, st.arena.length, r.2)

/-- Modelled from the spec: `boosting::split<T>(subset, left, right, vals, fv)`
is declared in a header not present in the repository; per the spec a row goes
into the left subset iff its encoded value for the feature is `≤ fv`, else into
the right subset, keeping the subset's order. -/
def splitPair (subset : List ℕ) (vals : List ℕ) (fv : ℕ) : List ℕ × List ℕ :=
  (subset.filter (fun id => decide (vals.getD id 0 ≤ fv)),
   subset.filter (fun id => ! decide (vals.getD id 0 ≤ fv)))

/-- `TreeRegressor::splitExamples(split, left, right)`: dispatch on the chosen
feature's encoding (`BYTE` → `bvec`, else `CHECK(SHORT)` → `svec`) and
partition the node's subset at threshold `fv`.  Indexing `features_[fid]` with
an out-of-range `fid` (undefined behaviour in C++) and the failing `CHECK` are
modelled as `none`. -/
def splitExamples (ctx : Ctx) (nd : SplitNode) : Option (List ℕ × List ℕ) :=
  if 0 ≤ nd.fid ∧ nd.fid.toNat < ctx.features.length then
    match (ctx.features.getD nd.fid.toNat default).encoding with
    | Encoding.BYTE =>
      some (splitPair nd.subset (ctx.features.getD nd.fid.toNat default).bvec nd.fv)
    | Encoding.SHORT =>
      some (splitPair nd.subset (ctx.features.getD nd.fid.toNat default).svec nd.fv)
    | Encoding.EMPTY => none
  else none

/-- The linear search over `frontiers_` in `getBestSplits`: returns the
position (iterator) of the first frontier entry whose gain strictly exceeds
every earlier one and `0.0`, or `none` (the `end()` iterator). -/
def findBestLoop (arena : List SplitNode) : List ℕ → ℕ → ℚ → Option ℕ → Option ℕ
  | [], _, _, best => best
  | i :: rest, k, bGain, best =>
    if bGain < (arena.getD i default).gain then
      findBestLoop arena rest (k + 1) (arena.getD i default).gain (some k)
    else
      findBestLoop arena rest (k + 1) bGain best

/-- The frontier scan of one `getBestSplits` iteration, from position 0 with
`bestGain = 0.0` and `best_it = end()`. -/
def findBest (st : GrowState) : Option ℕ := findBestLoop st.arena st.frontier 0 0 none

/-- Outcome of one iteration of the `do { ... } while` body in
`getBestSplits`: a failing `CHECK` (`fail`), the `break` when no frontier entry
has positive gain (`stop`), or a completed select-expand step (`next`). -/
inductive StepResult where
  | fail : StepResult
  | stop : GrowState → ℕ → ℕ → StepResult
  | next : GrowState → ℕ → ℕ → StepResult
deriving DecidableEq, Repr

/-- The expansion performed on the winning frontier entry (position `k`,
partition `lr`) in one `getBestSplits` iteration: mark it selected, erase it
from the frontier, build the two child candidates over the partition (their
indices are the next two arena slots), link them, and return the new state and
advanced random cursor. -/
def expandAt (ctx : Ctx) (rate : ℚ) (terminal : Bool) (st : GrowState) (k : ℕ)
    (lr : List ℕ × List ℕ) (pos : ℕ) : GrowState × ℕ :=
  let bi := st.frontier.getD k 0
  let bestSplit := st.arena.getD bi default
  let st1 : GrowState :=
    ⟨st.arena.set bi { bestSplit with selected := true }, st.frontier.eraseIdx k⟩
  let r1 := getBestSplit ctx rate terminal lr.1 st1 pos
  let r2 := getBestSplit ctx rate terminal lr.2 r1.1 r1.2.2
  (⟨r2.1.arena.set bi
      { bestSplit with selected := true, left := some r1.2.1, right := some r2.2.1 },
    r2.1.frontier⟩, r2.2.2)

/-- One iteration of the `do`-`while` body of `getBestSplits`: check the
frontier-size invariant, scan the frontier, `break` if nothing has positive
gain, otherwise `CHECK(bestGain > 0)`, mark the winner selected, erase it from
the frontier, partition its subset, and build the two children (terminal iff
this was the `numSplits`-th selection). -/
def growStep (ctx : Ctx) (rate : ℚ) (numSplits : ℕ) (st : GrowState)
    (numSelected pos : ℕ) : StepResult :=
  if st.frontier.length ≠ numSelected + 1 then StepResult.fail
  else
    match findBest st with
    | none => StepResult.stop st numSelected pos
    | some k =>
      if (st.arena.getD (st.frontier.getD k 0) default).gain ≤ 0 then StepResult.fail
      else
        match splitExamples ctx (st.arena.getD (st.frontier.getD k 0) default) with
        | none => StepResult.fail
        | some lr =>
          StepResult.next
            (expandAt ctx rate (decide (numSelected + 1 = numSplits)) st k lr pos).1
            (numSelected + 1)
            (expandAt ctx rate (decide (numSelected + 1 = numSplits)) st k lr pos).2

/-- The `do`-`while` loop of `getBestSplits`: run the body, and after a
completed step continue while `numSelected < numSplits`.  The fuel only bounds
the recursion depth; `getBestSplits` supplies `numSplits`, which is enough
(exhausted fuel would yield `none`). -/
def growLoop (ctx : Ctx) (rate : ℚ) (numSplits : ℕ) :
    ℕ → GrowState → ℕ → ℕ → Option (GrowState × ℕ × ℕ)
  | fuel, st, numSelected, pos =>
    match growStep ctx rate numSplits st numSelected pos with
    | StepResult.fail => none
    | StepResult.stop st' ns' pos' => some (st', ns', pos')
    | StepResult.next st' ns' pos' =>
      if ns' < numSplits then
        match fuel with
        | 0 => none
        | fuel' + 1 => growLoop ctx rate numSplits fuel' st' ns' pos'
      else some (st', ns', pos')

/-- `TreeRegressor::getBestSplits(subset, numSplits, featureSamplingRate)`:
build the root candidate over the whole subset on fresh `allSplits_` /
`frontiers_`, then run the select-expand loop.  Returns the final state, the
root's arena index, the number of selections made and the advanced random
cursor; `none` models an aborting `CHECK`. -/
def getBestSplits (ctx : Ctx) (rate : ℚ) (numSplits : ℕ) (subset : List ℕ)
    (pos : ℕ) : Option (GrowState × ℕ × ℕ × ℕ) :=
  let r0 := getBestSplit ctx rate false subset ⟨[], []⟩ pos
  match growLoop ctx rate numSplits numSplits r0.1 0 r0.2.2 with
  | none => none
  | some res => some (res.1, r0.2.1, res.2.1, res.2.2)

/-- The row-sampling loop at the top of `getTree`: one `biasedCoinFlip` per
example, keeping the rows whose flip comes up true; `numExamples` random draws
are consumed. -/
def sampleSubset (ctx : Ctx) (exRate : ℚ) (pos : ℕ) : List ℕ × ℕ :=
  ((List.range ctx.numExamples).filter
      (fun i => biasedCoinFlip ctx.randMax (ctx.rng (pos + i)) exRate),
    pos + ctx.numExamples)

/-- The inference tree `getTreeHelper` produces: `LeafNode` carries the vote;
`PartitionNode` carries `(fid, fv)`, its vote, and the two children (a child
may be the null node, kept as `Option`). -/
inductive TreeNodeQ where
  | leaf : ℚ → TreeNodeQ
  | node : ℕ → ℕ → ℚ → Option TreeNodeQ → Option TreeNodeQ → TreeNodeQ

/-- `TreeRegressor::getTreeHelper(split, fimps)`: a null split gives a null
node; an unselected split becomes a leaf after `CHECK`ing its subset holds at
least `min_leaf_examples` rows; a selected split accumulates its gain into
`fimps[fid]` (indexing with a negative `fid` would be undefined behaviour,
modelled as `none`), computes its vote, and recurses into both children.  The
fuel bounds recursion depth; callers pass the arena size, which suffices since
children always have larger indices. -/
def getTreeHelper (ctx : Ctx) (arena : List SplitNode) :
    ℕ → Option ℕ → (ℕ → ℚ) → Option (Option TreeNodeQ × (ℕ → ℚ))
  | _, none, fimps => some (none, fimps)
  | 0, some _, _ => none
  | fuel + 1, some i, fimps =>
    if (arena.getD i default).selected = false then
      if ctx.minLeaf ≤ (arena.getD i default).subset.length then
        some (some (TreeNodeQ.leaf (ctx.leafVal (arena.getD i default).subset ctx.y)), fimps)
      else none
    else
      if 0 ≤ (arena.getD i default).fid then
        let nd := arena.getD i default
        let fimps1 : ℕ → ℚ := fun j => if j = nd.fid.toNat then fimps j + nd.gain else fimps j
        match getTreeHelper ctx arena fuel nd.left fimps1 with
        | none => none
        | some lt =>
          match getTreeHelper ctx arena fuel nd.right lt.2 with
          | none => none
          | some rt =>
            some (some (TreeNodeQ.node nd.fid.toNat nd.fv (ctx.leafVal nd.subset ctx.y)
              lt.1 rt.1), rt.2)
      else none

/-- `TreeRegressor::getTree(numLeaves, exampleSamplingRate,
featureSamplingRate, fimps)`: sample the rows, `CHECK` that at least
`min_leaf_examples * numLeaves` of them were kept, grow the split tree with
`numSplits = numLeaves - 1`, and materialize it. -/
def getTree (ctx : Ctx) (numLeaves : ℕ) (exRate featRate : ℚ) (fimps : ℕ → ℚ)
    (pos : ℕ) : Option (Option TreeNodeQ × (ℕ → ℚ)) :=
  let s := sampleSubset ctx exRate pos
  if s.1.length < ctx.minLeaf * numLeaves then none
  else
    match getBestSplits ctx featRate (numLeaves - 1) s.1 s.2 with
    | none => none
    | some res => getTreeHelper ctx res.1.arena res.1.arena.length (some res.2.1) fimps

/-! ### Well-formedness of contexts, nodes, and grow states -/

/-- Preorder listing of the arena indices reachable from a split node:
a selected node is followed by its left then right subtree, an unselected node
is a leaf of the split tree. -/
def visitOrder (arena : List SplitNode) : ℕ → Option ℕ → List ℕ
  | _, none => []
  | 0, some _ => []
  | fuel + 1, some i =>
    if (arena.getD i default).selected = true then
      i :: (visitOrder arena fuel (arena.getD i default).left
            ++ visitOrder arena fuel (arena.getD i default).right)
    else [i]

/-- The gain contributed to feature `f` by the node at arena index `j`:
its gain if it is selected and split on `f`, else nothing. -/
def nodeGainTerm (arena : List SplitNode) (f : ℕ) (j : ℕ) : ℚ :=
  if (arena.getD j default).selected = true ∧ (arena.getD j default).fid = (f : ℤ) then
    (arena.getD j default).gain
  else 0

/-- Total gain credited to feature `f` over a list of arena indices. -/
def gainSumOver (arena : List SplitNode) (l : List ℕ) (f : ℕ) : ℚ :=
  (l.map (nodeGainTerm arena f)).sum

/-- Sum of the gains of all selected arena nodes whose chosen feature is `f`. -/
def arenaSelGainSum (arena : List SplitNode) (f : ℕ) : ℚ :=
  ((arena.filter (fun nd => nd.selected && (nd.fid == (f : ℤ)))).map
    (fun nd => nd.gain)).sum

/-- Well-formedness of the dataset/context: a positive `min_leaf_examples`
flag, one encoded value per example for every non-empty feature, every encoded
value a valid bin code, and bin counts within the `uint16_t` threshold range. -/
def ValidCtx (ctx : Ctx) : Prop :=
  1 ≤ ctx.minLeaf ∧
  (∀ f ∈ ctx.features, f.encoding ≠ Encoding.EMPTY →
    (featValsOf f).length = ctx.numExamples) ∧
  (∀ f ∈ ctx.features, ∀ v ∈ featValsOf f, v < f.transitions.length + 1) ∧
  (∀ f ∈ ctx.features, f.transitions.length < 65536)

/-- Invariant of the accumulator of `getBestSplit`'s per-feature scan after
the features of indices `< c` have been considered: the best gain is
nonnegative, and when it is positive it was produced — together with the best
feature id and threshold — by the evaluator on some evaluated (non-empty,
in-range) feature's histogram. -/
def ScanAcc (ctx : Ctx) (subset : List ℕ) (totalSum : ℚ) (c : ℕ)
    (acc : ℤ × ℤ × ℚ) : Prop :=
  0 ≤ acc.2.2 ∧
  (0 < acc.2.2 → ∃ fid : ℕ, fid < c ∧ fid < ctx.features.length ∧
    acc.1 = (fid : ℤ) ∧
    (ctx.features.getD fid default).encoding ≠ Encoding.EMPTY ∧
    getBestSplitFromHistogram ctx.minLeaf
      (histFor ctx (ctx.features.getD fid default) subset totalSum) =
        (acc.2.1, acc.2.2))

/-- Well-formedness of one split node: rows in range, a subset no smaller than
`min_leaf_examples`, a nonnegative gain, and — whenever the gain is positive —
a valid chosen feature whose threshold partitions the subset into two sides of
at least `min_leaf_examples` rows each. -/
def NodeOK (ctx : Ctx) (nd : SplitNode) : Prop :=
  (∀ id ∈ nd.subset, id < ctx.numExamples) ∧
  ctx.minLeaf ≤ nd.subset.length ∧
  0 ≤ nd.gain ∧
  (0 < nd.gain →
    0 ≤ nd.fid ∧ nd.fid.toNat < ctx.features.length ∧
    (ctx.features.getD nd.fid.toNat default).encoding ≠ Encoding.EMPTY ∧
    ctx.minLeaf ≤
      (splitPair nd.subset (featValsOf (ctx.features.getD nd.fid.toNat default)) nd.fv).1.length ∧
    ctx.minLeaf ≤
      (splitPair nd.subset (featValsOf (ctx.features.getD nd.fid.toNat default)) nd.fv).2.length)

/-- Structural well-formedness of a selected node at arena index `j`: positive
gain, a nonnegative feature id, and two children with strictly larger in-range
indices. -/
def SelOKAt (arena : List SplitNode) (j : ℕ) : Prop :=
  (arena.getD j default).selected = true →
    0 < (arena.getD j default).gain ∧ 0 ≤ (arena.getD j default).fid ∧
    (arena.getD j default).left.isSome = true ∧
    (arena.getD j default).right.isSome = true ∧
    j < (arena.getD j default).left.getD 0 ∧
    (arena.getD j default).left.getD 0 < arena.length ∧
    j < (arena.getD j default).right.getD 0 ∧
    (arena.getD j default).right.getD 0 < arena.length

/-- The grow-state invariant: every node is well formed, selected nodes have
well-formed children links, the frontier holds distinct in-range indices of
unselected nodes, and the split tree reachable from the root (index 0) visits
every arena index exactly once. -/
def ArenaInv (ctx : Ctx) (st : GrowState) : Prop :=
  (∀ nd ∈ st.arena, NodeOK ctx nd) ∧
  (∀ j, j < st.arena.length → SelOKAt st.arena j) ∧
  (∀ k ∈ st.frontier, k < st.arena.length ∧ (st.arena.getD k default).selected = false) ∧
  st.frontier.Nodup ∧
  (visitOrder st.arena st.arena.length (some 0)).Perm (List.range st.arena.length)

/-! ### Concrete contexts used by witnesses and counterexamples -/

/-- Two rows, one two-bin byte feature with codes `0, 1`, targets `0, 2`,
`min_leaf_examples = 1`, `RAND_MAX = 100`, every `rand()` draw `0`. -/
def exCtx2 : Ctx :=
  ⟨[⟨Encoding.BYTE, [10], [0, 1], []⟩], 2, fun id => ([0, 2] : List ℚ).getD id 0,
   fun s _ => (s.length : ℚ), 1, 100, fun _ => 0⟩

/-- Eight rows over one four-bin byte feature with codes `0,0,1,1,2,2,3,3` and
targets `0,0,1,1,3,3,4,4`: after the root split the two children have equal
gain `1`. -/
def exCtx8 : Ctx :=
  ⟨[⟨Encoding.BYTE, [10, 20, 30], [0, 0, 1, 1, 2, 2, 3, 3], []⟩], 8,
   fun id => ([0, 0, 1, 1, 3, 3, 4, 4] : List ℚ).getD id 0,
   fun _ _ => 0, 1, 100, fun _ => 0⟩

/-- Same dataset as `exCtx2` but every `rand()` draw returns `RAND_MAX`. -/
def exCtxMax : Ctx :=
  ⟨[⟨Encoding.BYTE, [10], [0, 1], []⟩], 2, fun id => ([0, 1] : List ℚ).getD id 0,
   fun _ _ => 0, 1, 100, fun _ => 100⟩

/-- The root state of growth over `exCtx8`'s eight rows: one frontier entry,
the root candidate splitting at boundary 1 with gain 18. -/
def exRoot8 : GrowState :=
  ⟨[⟨[0, 1, 2, 3, 4, 5, 6, 7], 0, 1, 18, false, none, none⟩], [0]⟩

/-- The state after the first expansion of `exRoot8` under `exCtx8`
(`numSplits = 2`): the root is selected and the two children — both of gain 1 —
form the frontier. -/
def exState8 : GrowState :=
  ⟨[⟨[0, 1, 2, 3, 4, 5, 6, 7], 0, 1, 18, true, some 1, some 2⟩,
    ⟨[0, 1, 2, 3], 0, 0, 1, false, none, none⟩,
    ⟨[4, 5, 6, 7], 0, 2, 1, false, none, none⟩], [1, 2]⟩

/-- Final state of growing `exCtx2` with `numSplits = 1`: the root is selected,
its two children are terminal, and the frontier is empty. -/
def exFinal2T : GrowState :=
  ⟨[⟨[0, 1], 0, 0, 2, true, some 1, some 2⟩,
    ⟨[0], -1, 0, 0, false, none, none⟩,
    ⟨[1], -1, 0, 0, false, none, none⟩], []⟩

/-- Final state of growing `exCtx2` with `numSplits = 0`: the `do`-`while` body
still runs once, so the root is selected and its two children — created
non-terminal — sit on the frontier. -/
def exFinal2N : GrowState :=
  ⟨[⟨[0, 1], 0, 0, 2, true, some 1, some 2⟩,
    ⟨[0], -1, 0, 0, false, none, none⟩,
    ⟨[1], -1, 0, 0, false, none, none⟩], [1, 2]⟩

/-- Final state of growing `exCtx8` with `numSplits = 2`: the second selection
takes the first of the two equal-gain children. -/
def exFinal8 : GrowState :=
  ⟨[⟨[0, 1, 2, 3, 4, 5, 6, 7], 0, 1, 18, true, some 1, some 2⟩,
    ⟨[0, 1, 2, 3], 0, 0, 1, true, some 3, some 4⟩,
    ⟨[4, 5, 6, 7], 0, 2, 1, false, none, none⟩,
    ⟨[0, 1], -1, 0, 0, false, none, none⟩,
    ⟨[2, 3], -1, 0, 0, false, none, none⟩], [2]⟩

/-! ### Lemmas about the split evaluator -/

theorem List.drop_cons_facts {α : Type _} (d : α) :
    ∀ (p : ℕ) (l : List α) (x : α) (rest : List α), l.drop p = x :: rest →
      l.getD p d = x ∧ l.drop (p + 1) = rest ∧ p < l.length := by
  intro p
  induction p with
  | zero =>
    intro l x rest hdrop
    simp only [List.drop_zero] at hdrop
    subst hdrop
    simp
  | succ p ih =>
    intro l x rest hdrop
    match l with
    | [] => simp at hdrop
    | a :: l' =>
      have h' : l'.drop p = x :: rest := hdrop
      obtain ⟨h1, h2, h3⟩ := ih l' x rest h'
      refine ⟨h1, h2, ?_⟩
      simpa using Nat.succ_lt_succ h3

theorem pCnt_succ (h : Histogram) (p : ℕ) (hp : p < h.cnt.length) :
    pCnt h (p + 1) = pCnt h p + h.cnt.getD p 0 := by
  unfold pCnt
  rw [List.take_succ, List.sum_append]
  have : h.cnt[p]? = some h.cnt[p] := List.getElem?_eq_getElem hp
  rw [List.getD_eq_getElem?_getD, this]
  simp

theorem pSum_succ (h : Histogram) (p : ℕ) (hp : p < h.sumy.length) :
    pSum h (p + 1) = pSum h p + h.sumy.getD p 0 := by
  unfold pSum
  rw [List.take_succ, List.sum_append]
  have : h.sumy[p]? = some h.sumy[p] := List.getElem?_eq_getElem hp
  rw [List.getD_eq_getElem?_getD, this]
  simp

theorem pCnt_mono (h : Histogram) {p q : ℕ} (hpq : p ≤ q) : pCnt h p ≤ pCnt h q := by
  unfold pCnt
  have : q = p + (q - p) := by omega
  rw [this, List.take_add, List.sum_append]
  exact Nat.le_add_right _ _

theorem zsOf_length (h : Histogram) (hlen : h.sumy.length = h.cnt.length) :
    (zsOf h).length = h.num - 1 := by
  simp [zsOf, List.length_take, List.length_zip, hlen, Histogram.num]

theorem zsOf_getD (h : Histogram) (hlen : h.sumy.length = h.cnt.length) (p : ℕ)
    (hp : p < h.num - 1) :
    (zsOf h).getD p (0, 0) = (h.cnt.getD p 0, h.sumy.getD p 0) := by
  have hz : p < (h.cnt.zip h.sumy).length := by
    have hnum : h.num = h.cnt.length := rfl
    simp [List.length_zip, hlen]
    omega
  have hzs : p < (zsOf h).length := by rw [zsOf_length h hlen]; exact hp
  have hc : p < h.cnt.length := by
    have hnum : h.num = h.cnt.length := rfl
    omega
  have hs : p < h.sumy.length := by rw [hlen]; exact hc
  rw [List.getD_eq_getElem?_getD, List.getElem?_eq_getElem hzs]
  have : (zsOf h)[p] = (h.cnt.zip h.sumy).get ⟨p, hz⟩ := by
    simp [zsOf, List.getElem_take]
  rw [this]
  rw [List.get_eq_getElem, List.getElem_zip]
  simp [List.getD_eq_getElem?_getD, List.getElem?_eq_getElem hc, List.getElem?_eq_getElem hs]

theorem bg_nonneg_of_BestSoFar {minLeaf : ℕ} {h : Histogram} {p : ℕ} {bi : ℤ} {bg : ℚ}
    (hb : BestSoFar minLeaf h p bi bg) : 0 ≤ bg := by
  rcases hb with ⟨-, rfl, -⟩ | ⟨j, -, -, -, -, hpos, -⟩
  · exact le_refl 0
  · exact le_of_lt hpos

theorem ub_of_BestSoFar {minLeaf : ℕ} {h : Histogram} {p : ℕ} {bi : ℤ} {bg : ℚ}
    (hb : BestSoFar minLeaf h p bi bg) :
    ∀ k, k < p → ValidSplitIdx minLeaf h k → gainAt h k ≤ bg := by
  rcases hb with ⟨-, rfl, hle⟩ | ⟨j, -, -, -, -, -, hle, -⟩
  · exact hle
  · exact hle

theorem gbsLoop_spec (minLeaf : ℕ) (h : Histogram) (hlen : h.sumy.length = h.cnt.length) :
    ∀ (bins : List (ℕ × ℚ)) (p : ℕ) (bi : ℤ) (bg : ℚ),
      bins = (zsOf h).drop p →
      BestSoFar minLeaf h p bi bg →
      EvalChar minLeaf h
        (gbsLoop minLeaf h.totalCnt h.totalSum (lossBefore h) bins p (pCnt h p) (pSum h p) bi bg) := by
  intro bins
  induction bins with
  | nil =>
    intro p bi bg hdrop hbest
    have hall : ∀ k, ValidSplitIdx minLeaf h k → k < p := by
      intro k hk
      have h1 : k + 1 < h.num := hk.1
      have h2 : (zsOf h).length = h.num - 1 := zsOf_length h hlen
      have hple : (zsOf h).length ≤ p := List.drop_eq_nil_iff.mp hdrop.symm
      omega
    rcases hbest with ⟨hbi, hbg, hle⟩ | ⟨j, hbi, hjp, hvj, hgj, hpos, hle, hstrict⟩
    · left
      refine ⟨by simp only [gbsLoop]; rw [hbi, hbg], fun k hk => hle k (hall k hk) hk⟩
    · right
      refine ⟨j, ?_, hvj, by rw [hgj]; exact hpos, ?_, ?_⟩
      · simp only [gbsLoop]; rw [hbi, hgj]
      · intro k hk
        rw [hgj]
        exact hle k (hall k hk) hk
      · intro k hkj hk
        rw [hgj]
        exact hstrict k hkj hk
  | cons cs rest ih =>
    intro p bi bg hdrop hbest
    obtain ⟨c, s⟩ := cs
    obtain ⟨hget, hdrop', hplen⟩ := List.drop_cons_facts (0, 0) p (zsOf h) (c, s) rest hdrop.symm
    have hpnum : p < h.num - 1 := by rw [zsOf_length h hlen] at hplen; exact hplen
    have hpc : p < h.cnt.length := by unfold Histogram.num at hpnum; omega
    have hps : p < h.sumy.length := by rw [hlen]; exact hpc
    have hcs : c = h.cnt.getD p 0 ∧ s = h.sumy.getD p 0 := by
      have := zsOf_getD h hlen p hpnum
      rw [hget] at this
      exact ⟨congrArg Prod.fst this, congrArg Prod.snd this⟩
    have hcl : pCnt h p + c = cntLeftAt h p := by
      rw [hcs.1, cntLeftAt, pCnt_succ h p hpc]
    have hsl : pSum h p + s = sumLeftAt h p := by
      rw [hcs.2, sumLeftAt, pSum_succ h p hps]
    have hclB : cntLeftAt h p = pCnt h (p + 1) := rfl
    have hslB : sumLeftAt h p = pSum h (p + 1) := rfl
    simp only [gbsLoop, hcl, hsl]
    by_cases h1 : cntLeftAt h p < minLeaf
    · -- continue: left side too small, index p is not eligible
      rw [if_pos h1]
      have hnv : ¬ ValidSplitIdx minLeaf h p := fun hv => absurd hv.2.1 (by omega)
      have hbest' : BestSoFar minLeaf h (p + 1) bi bg := by
        rcases hbest with ⟨hbi, hbg, hle⟩ | ⟨j, hbi, hjp, hvj, hgj, hpos, hle, hstrict⟩
        · left
          refine ⟨hbi, hbg, fun k hk hvk => ?_⟩
          rcases Nat.lt_succ_iff_lt_or_eq.mp hk with hk' | rfl
          · exact hle k hk' hvk
          · exact absurd hvk hnv
        · right
          refine ⟨j, hbi, by omega, hvj, hgj, hpos, fun k hk hvk => ?_, hstrict⟩
          rcases Nat.lt_succ_iff_lt_or_eq.mp hk with hk' | rfl
          · exact hle k hk' hvk
          · exact absurd hvk hnv
      rw [hclB, hslB]
      exact ih (p + 1) bi bg hdrop'.symm hbest'
    · rw [if_neg h1]
      by_cases h2 : ((h.totalCnt : ℤ) - ((cntLeftAt h p : ℕ) : ℤ)) < (minLeaf : ℤ)
      · -- break: from index p on, the right side stays too small
        rw [if_pos h2]
        have hall : ∀ k, ValidSplitIdx minLeaf h k → k < p := by
          intro k hk
          by_contra hge
          push_neg at hge
          have hmono : cntLeftAt h p ≤ cntLeftAt h k := pCnt_mono h (by omega)
          have := hk.2.2
          omega
        rcases hbest with ⟨hbi, hbg, hle⟩ | ⟨j, hbi, hjp, hvj, hgj, hpos, hle, hstrict⟩
        · left
          exact ⟨by rw [hbi, hbg], fun k hk => hle k (hall k hk) hk⟩
        · right
          refine ⟨j, by rw [hbi, hgj], hvj, by rw [hgj]; exact hpos, ?_, ?_⟩
          · intro k hk
            rw [hgj]
            exact hle k (hall k hk) hk
          · intro k hkj hk
            rw [hgj]
            exact hstrict k hkj hk
      · rw [if_neg h2]
        have hvp : ValidSplitIdx minLeaf h p :=
          ⟨by unfold Histogram.num at hpnum ⊢; omega, by omega, by omega⟩
        have hgain : lossBefore h -
            (-1 * sumLeftAt h p * sumLeftAt h p / ((cntLeftAt h p : ℕ) : ℚ)
              - 1 * (h.totalSum - sumLeftAt h p) * (h.totalSum - sumLeftAt h p)
                / (((h.totalCnt : ℤ) - ((cntLeftAt h p : ℕ) : ℤ) : ℤ) : ℚ)) = gainAt h p := rfl
        rw [hgain]
        by_cases h3 : bg < gainAt h p
        · rw [if_pos h3]
          have hbest' : BestSoFar minLeaf h (p + 1) (p : ℤ) (gainAt h p) := by
            right
            refine ⟨p, rfl, by omega, hvp, rfl,
              lt_of_le_of_lt (bg_nonneg_of_BestSoFar hbest) h3, ?_, ?_⟩
            · intro k hk hvk
              rcases Nat.lt_succ_iff_lt_or_eq.mp hk with hk' | rfl
              · exact le_of_lt (lt_of_le_of_lt (ub_of_BestSoFar hbest k hk' hvk) h3)
              · exact le_refl _
            · intro k hk hvk
              exact lt_of_le_of_lt (ub_of_BestSoFar hbest k hk hvk) h3
          rw [hclB, hslB]
          exact ih (p + 1) (p : ℤ) (gainAt h p) hdrop'.symm hbest'
        · rw [if_neg h3]
          have h3' : gainAt h p ≤ bg := le_of_not_lt h3
          have hbest' : BestSoFar minLeaf h (p + 1) bi bg := by
            rcases hbest with ⟨hbi, hbg, hle⟩ | ⟨j, hbi, hjp, hvj, hgj, hpos, hle, hstrict⟩
            · left
              refine ⟨hbi, hbg, fun k hk hvk => ?_⟩
              rcases Nat.lt_succ_iff_lt_or_eq.mp hk with hk' | rfl
              · exact hle k hk' hvk
              · rw [hbg] at h3'; exact h3'
            · right
              refine ⟨j, hbi, by omega, hvj, hgj, hpos, fun k hk hvk => ?_, hstrict⟩
              rcases Nat.lt_succ_iff_lt_or_eq.mp hk with hk' | rfl
              · exact hle k hk' hvk
              · exact h3'
          rw [hclB, hslB]
          exact ih (p + 1) bi bg hdrop'.symm hbest'

theorem gbs_char (minLeaf : ℕ) (h : Histogram) (hlen : h.sumy.length = h.cnt.length) :
    EvalChar minLeaf h (getBestSplitFromHistogram minLeaf h) := by
  have h0 : BestSoFar minLeaf h 0 (-1) 0 := Or.inl ⟨rfl, rfl, fun k hk => by omega⟩
  have := gbsLoop_spec minLeaf h hlen (zsOf h) 0 (-1) 0 rfl h0
  simpa [pCnt, pSum, getBestSplitFromHistogram] using this

theorem gbsLoopNB_dead (minLeaf totalCnt : ℕ) (totalSum lossB : ℚ) :
    ∀ (bins : List (ℕ × ℚ)) (i cl : ℕ) (sl : ℚ) (bi : ℤ) (bg : ℚ),
      (totalCnt : ℤ) - (cl : ℤ) < (minLeaf : ℤ) →
      gbsLoopNB minLeaf totalCnt totalSum lossB bins i cl sl bi bg = (bi, bg) := by
  intro bins
  induction bins with
  | nil => intro i cl sl bi bg _; rfl
  | cons cs rest ih =>
    intro i cl sl bi bg hdead
    obtain ⟨c, s⟩ := cs
    have hdead' : (totalCnt : ℤ) - ((cl + c : ℕ) : ℤ) < (minLeaf : ℤ) := by
      push_cast at hdead ⊢
      omega
    simp only [gbsLoopNB]
    by_cases h1 : cl + c < minLeaf
    · rw [if_pos h1]
      exact ih (i + 1) (cl + c) (sl + s) bi bg hdead'
    · rw [if_neg h1, if_pos hdead']
      exact ih (i + 1) (cl + c) (sl + s) bi bg hdead'

theorem gbsLoop_eq_NB (minLeaf totalCnt : ℕ) (totalSum lossB : ℚ) :
    ∀ (bins : List (ℕ × ℚ)) (i cl : ℕ) (sl : ℚ) (bi : ℤ) (bg : ℚ),
      gbsLoop minLeaf totalCnt totalSum lossB bins i cl sl bi bg =
        gbsLoopNB minLeaf totalCnt totalSum lossB bins i cl sl bi bg := by
  intro bins
  induction bins with
  | nil => intro i cl sl bi bg; rfl
  | cons cs rest ih =>
    intro i cl sl bi bg
    obtain ⟨c, s⟩ := cs
    simp only [gbsLoop, gbsLoopNB]
    by_cases h1 : cl + c < minLeaf
    · rw [if_pos h1, if_pos h1]
      exact ih (i + 1) (cl + c) (sl + s) bi bg
    · rw [if_neg h1, if_neg h1]
      by_cases h2 : (totalCnt : ℤ) - ((cl + c : ℕ) : ℤ) < (minLeaf : ℤ)
      · rw [if_pos h2, if_pos h2]
        exact (gbsLoopNB_dead minLeaf totalCnt totalSum lossB rest (i + 1) (cl + c)
          (sl + s) bi bg h2).symm
      · rw [if_neg h2, if_neg h2]
        by_cases h3 : bg < lossB -
            (-1 * (sl + s) * (sl + s) / ((cl + c : ℕ) : ℚ)
              - 1 * (totalSum - (sl + s)) * (totalSum - (sl + s))
                / (((totalCnt : ℤ) - ((cl + c : ℕ) : ℤ) : ℤ) : ℚ))
        · rw [if_pos h3, if_pos h3]
          exact ih (i + 1) (cl + c) (sl + s) (i : ℤ) _
        · rw [if_neg h3, if_neg h3]
          exact ih (i + 1) (cl + c) (sl + s) bi bg

theorem gbs_eq_NB (minLeaf : ℕ) (h : Histogram) :
    getBestSplitFromHistogram minLeaf h = getBestSplitFromHistogramNB minLeaf h :=
  gbsLoop_eq_NB minLeaf h.totalCnt h.totalSum (lossBefore h) (zsOf h) 0 0 0 (-1) 0

/-! ### Partition lemmas for `splitPair` / `splitExamples` -/

theorem count_filter_add (p : ℕ → Bool) (l : List ℕ) (x : ℕ) :
    (l.filter p).count x + (l.filter (fun a => ! p a)).count x = l.count x := by
  induction l with
  | nil => rfl
  | cons a rest ih =>
    cases hp : p a with
    | true =>
      rw [List.filter_cons_of_pos (by simp [hp]), List.filter_cons_of_neg (by simp [hp]),
        List.count_cons, List.count_cons]
      by_cases hax : x = a
      · subst hax; simp; omega
      · simp [hax]; omega
    | false =>
      rw [List.filter_cons_of_neg (by simp [hp]), List.filter_cons_of_pos (by simp [hp]),
        List.count_cons, List.count_cons]
      by_cases hax : x = a
      · subst hax; simp; omega
      · simp [hax]; omega

theorem length_filter_add (p : ℕ → Bool) (l : List ℕ) :
    (l.filter p).length + (l.filter (fun a => ! p a)).length = l.length := by
  induction l with
  | nil => rfl
  | cons a rest ih =>
    cases hp : p a with
    | true =>
      rw [List.filter_cons_of_pos (by simp [hp]), List.filter_cons_of_neg (by simp [hp])]
      simp only [List.length_cons]
      omega
    | false =>
      rw [List.filter_cons_of_neg (by simp [hp]), List.filter_cons_of_pos (by simp [hp])]
      simp only [List.length_cons]
      omega

theorem splitPair_count (subset vals : List ℕ) (fv : ℕ) (x : ℕ) :
    ((splitPair subset vals fv).1.count x) + ((splitPair subset vals fv).2.count x) =
      subset.count x :=
  count_filter_add (fun id => decide (vals.getD id 0 ≤ fv)) subset x

theorem splitPair_length (subset vals : List ℕ) (fv : ℕ) :
    (splitPair subset vals fv).1.length + (splitPair subset vals fv).2.length =
      subset.length :=
  length_filter_add (fun id => decide (vals.getD id 0 ≤ fv)) subset

theorem splitPair_mem_left (subset vals : List ℕ) (fv : ℕ) (x : ℕ) :
    x ∈ (splitPair subset vals fv).1 ↔ x ∈ subset ∧ vals.getD x 0 ≤ fv := by
  unfold splitPair
  simp [List.mem_filter]

theorem splitPair_mem_right (subset vals : List ℕ) (fv : ℕ) (x : ℕ) :
    x ∈ (splitPair subset vals fv).2 ↔ x ∈ subset ∧ ¬ (vals.getD x 0 ≤ fv) := by
  unfold splitPair
  simp [List.mem_filter]

theorem splitExamples_eq (ctx : Ctx) (nd : SplitNode) (l r : List ℕ)
    (hs : splitExamples ctx nd = some (l, r)) :
    l = (splitPair nd.subset (featValsOf (ctx.features.getD nd.fid.toNat default)) nd.fv).1 ∧
    r = (splitPair nd.subset (featValsOf (ctx.features.getD nd.fid.toNat default)) nd.fv).2 := by
  unfold splitExamples at hs
  by_cases hb : 0 ≤ nd.fid ∧ nd.fid.toNat < ctx.features.length
  · rw [if_pos hb] at hs
    rcases henc : (ctx.features.getD nd.fid.toNat default).encoding with _ | _ | _
    · rw [henc] at hs
      exact absurd hs (by simp)
    · rw [henc] at hs
      have : (l, r) = splitPair nd.subset (ctx.features.getD nd.fid.toNat default).bvec nd.fv := by
        have := hs
        simpa using this.symm
      rw [featValsOf, henc]
      exact ⟨congrArg Prod.fst this, congrArg Prod.snd this⟩
    · rw [henc] at hs
      have : (l, r) = splitPair nd.subset (ctx.features.getD nd.fid.toNat default).svec nd.fv := by
        have := hs
        simpa using this.symm
      rw [featValsOf, henc]
      exact ⟨congrArg Prod.fst this, congrArg Prod.snd this⟩
  · rw [if_neg hb] at hs
    exact absurd hs (by simp)

/-! ### Histogram counting -/

theorem set_take_sum : ∀ (l : List ℕ) (b p : ℕ), b < l.length →
    ((l.set b (l.getD b 0 + 1)).take p).sum =
      (l.take p).sum + (if b < p then 1 else 0) := by
  intro l
  induction l with
  | nil => intro b p hb; simp at hb
  | cons c l' ih =>
    intro b p hb
    cases b with
    | zero =>
      cases p with
      | zero => simp
      | succ p' => simp [List.getD_cons_zero, List.set_cons_zero]; omega
    | succ b' =>
      cases p with
      | zero => simp
      | succ p' =>
        have hb' : b' < l'.length := by simpa using hb
        simp only [List.getD_cons_succ, List.set_cons_succ, List.take_succ_cons,
          List.sum_cons]
        rw [ih b' p' hb']
        by_cases hbp : b' < p' <;> simp [hbp] <;> omega

theorem bumpHist_cnt_length (y : ℕ → ℚ) (vals : List ℕ) (h : Histogram) (id : ℕ) :
    (bumpHist y vals h id).cnt.length = h.cnt.length := by
  simp [bumpHist, List.length_set]

theorem bumpHist_sumy_length (y : ℕ → ℚ) (vals : List ℕ) (h : Histogram) (id : ℕ) :
    (bumpHist y vals h id).sumy.length = h.sumy.length := by
  simp [bumpHist, List.length_set]

theorem buildHistogram_cnt_length (y : ℕ → ℚ) (vals : List ℕ) :
    ∀ (subset : List ℕ) (h : Histogram),
      (buildHistogram y subset vals h).cnt.length = h.cnt.length := by
  intro subset
  induction subset with
  | nil => intro h; rfl
  | cons id rest ih =>
    intro h
    unfold buildHistogram at ih ⊢
    simp only [List.foldl_cons]
    rw [ih (bumpHist y vals h id), bumpHist_cnt_length]

theorem buildHistogram_sumy_length (y : ℕ → ℚ) (vals : List ℕ) :
    ∀ (subset : List ℕ) (h : Histogram),
      (buildHistogram y subset vals h).sumy.length = h.sumy.length := by
  intro subset
  induction subset with
  | nil => intro h; rfl
  | cons id rest ih =>
    intro h
    unfold buildHistogram at ih ⊢
    simp only [List.foldl_cons]
    rw [ih (bumpHist y vals h id), bumpHist_sumy_length]

theorem buildHistogram_totals (y : ℕ → ℚ) (vals : List ℕ) :
    ∀ (subset : List ℕ) (h : Histogram),
      (buildHistogram y subset vals h).totalCnt = h.totalCnt ∧
      (buildHistogram y subset vals h).totalSum = h.totalSum := by
  intro subset
  induction subset with
  | nil => intro h; exact ⟨rfl, rfl⟩
  | cons id rest ih =>
    intro h
    unfold buildHistogram at ih ⊢
    simp only [List.foldl_cons]
    have := ih (bumpHist y vals h id)
    simpa [bumpHist] using this

theorem buildHistogram_cnt_agree (y : ℕ → ℚ) (vals : List ℕ) :
    ∀ (subset : List ℕ) (h : Histogram),
      (∀ id ∈ subset, vals.getD id 0 < h.cnt.length) →
      ∀ p, ((buildHistogram y subset vals h).cnt.take p).sum =
        (h.cnt.take p).sum +
          (subset.filter (fun id => decide (vals.getD id 0 < p))).length := by
  intro subset
  induction subset with
  | nil => intro h _ p; simp [buildHistogram]
  | cons id rest ih =>
    intro h hcodes p
    unfold buildHistogram at ih ⊢
    simp only [List.foldl_cons]
    have hb : vals.getD id 0 < h.cnt.length := hcodes id (by simp)
    have hrest : ∀ i ∈ rest, vals.getD i 0 < (bumpHist y vals h id).cnt.length := by
      intro i hi
      rw [bumpHist_cnt_length]
      exact hcodes i (by simp [hi])
    rw [ih (bumpHist y vals h id) hrest p]
    have hstep : ((bumpHist y vals h id).cnt.take p).sum =
        (h.cnt.take p).sum + (if vals.getD id 0 < p then 1 else 0) := by
      simpa [bumpHist] using set_take_sum h.cnt (vals.getD id 0) p hb
    rw [hstep, List.filter_cons]
    by_cases hbp : vals.getD id 0 < p
    · rw [if_pos hbp, if_pos (decide_eq_true hbp)]
      simp only [List.length_cons]
      omega
    · rw [if_neg hbp, if_neg (by simp only [decide_eq_true_eq]; exact hbp)]
      omega

theorem histFor_cnt_length (ctx : Ctx) (f : Feature) (subset : List ℕ) (totalSum : ℚ) :
    (histFor ctx f subset totalSum).cnt.length = f.transitions.length + 1 := by
  unfold histFor emptyHistogram
  rw [buildHistogram_cnt_length]
  simp

theorem histFor_sumy_length (ctx : Ctx) (f : Feature) (subset : List ℕ) (totalSum : ℚ) :
    (histFor ctx f subset totalSum).sumy.length = f.transitions.length + 1 := by
  unfold histFor emptyHistogram
  rw [buildHistogram_sumy_length]
  simp

theorem histFor_totalCnt (ctx : Ctx) (f : Feature) (subset : List ℕ) (totalSum : ℚ) :
    (histFor ctx f subset totalSum).totalCnt = subset.length :=
  (buildHistogram_totals ctx.y (featValsOf f) subset _).1

theorem decide_lt_succ_eq_decide_le (v i : ℕ) :
    decide (v < i + 1) = decide (v ≤ i) :=
  decide_eq_decide.mpr (by omega)

theorem histFor_cntLeftAt (ctx : Ctx) (f : Feature) (subset : List ℕ) (totalSum : ℚ)
    (hcodes : ∀ id ∈ subset, (featValsOf f).getD id 0 < f.transitions.length + 1)
    (i : ℕ) :
    cntLeftAt (histFor ctx f subset totalSum) i =
      (subset.filter (fun id => decide ((featValsOf f).getD id 0 ≤ i))).length := by
  unfold cntLeftAt pCnt histFor
  rw [buildHistogram_cnt_agree ctx.y (featValsOf f) subset _
    (by intro id hid; simpa [emptyHistogram] using hcodes id hid) (i + 1)]
  have hrepl : (emptyHistogram (f.transitions.length + 1) subset.length totalSum).cnt =
      List.replicate (f.transitions.length + 1) 0 := rfl
  rw [hrepl, List.take_replicate, List.sum_replicate, smul_zero, Nat.zero_add,
    List.filter_congr (fun id _ => decide_lt_succ_eq_decide_le _ i)]

/-! ### The feature scan of getBestSplit -/

theorem toUInt16_of_lt {n : ℕ} (h : n < 65536) : toUInt16 (n : ℤ) = n := by
  unfold toUInt16
  omega

theorem scanFeatures_spec (ctx : Ctx) (rate : ℚ) (subset : List ℕ) (totalSum : ℚ) :
    ∀ (fs : List Feature) (c pos : ℕ) (acc : ℤ × ℤ × ℚ),
      fs = ctx.features.drop c →
      ScanAcc ctx subset totalSum c acc →
      ScanAcc ctx subset totalSum ctx.features.length
        (scanFeatures ctx rate subset totalSum fs c pos acc).1 := by
  intro fs
  induction fs with
  | nil =>
    intro c pos acc hdrop hacc
    rw [scanFeatures]
    obtain ⟨hnn, hpos⟩ := hacc
    exact ⟨hnn, fun hg => by
      obtain ⟨fid, hc, hlen, h1, h2, h3⟩ := hpos hg
      exact ⟨fid, hlen, hlen, h1, h2, h3⟩⟩
  | cons f rest ih =>
    intro c pos acc hdrop hacc
    obtain ⟨hget, hdrop', hlt⟩ := List.drop_cons_facts default c ctx.features f rest hdrop.symm
    have hext : ScanAcc ctx subset totalSum (c + 1) acc := by
      obtain ⟨hnn, hpos⟩ := hacc
      exact ⟨hnn, fun hg => by
        obtain ⟨fid, hc, hlen, h1, h2, h3⟩ := hpos hg
        exact ⟨fid, by omega, hlen, h1, h2, h3⟩⟩
    rw [scanFeatures]
    by_cases he : f.encoding = Encoding.EMPTY
    · rw [if_pos he]
      exact ih (c + 1) pos acc hdrop'.symm hext
    · rw [if_neg he]
      by_cases hflip : biasedCoinFlip ctx.randMax (ctx.rng pos) rate = false
      · rw [if_pos hflip]
        exact ih (c + 1) (pos + 1) acc hdrop'.symm hext
      · rw [if_neg hflip]
        by_cases hup : acc.2.2 <
            (getBestSplitFromHistogram ctx.minLeaf (histFor ctx f subset totalSum)).2
        · rw [if_pos hup]
          refine ih (c + 1) (pos + 1) _ hdrop'.symm ⟨le_of_lt (lt_of_le_of_lt hacc.1 hup), ?_⟩
          intro _
          refine ⟨c, by omega, hlt, rfl, ?_, ?_⟩
          · rw [hget]
            exact he
          · rw [hget]
        · rw [if_neg hup]
          exact ih (c + 1) (pos + 1) acc hdrop'.symm hext

theorem getD_mem_of_lt {α : Type _} [Inhabited α] (l : List α) (i : ℕ) (h : i < l.length) :
    l.getD i default ∈ l := by
  rw [List.getD_eq_getElem?_getD, List.getElem?_eq_getElem h]
  exact List.getElem_mem h

theorem getBestSplit_spec (ctx : Ctx) (hv : ValidCtx ctx) (rate : ℚ) (term : Bool)
    (subset : List ℕ) (st : GrowState) (pos : ℕ)
    (hrows : ∀ id ∈ subset, id < ctx.numExamples) (hsz : ctx.minLeaf ≤ subset.length) :
    ∃ nd : SplitNode,
      (getBestSplit ctx rate term subset st pos).1.arena = st.arena ++ [nd] ∧
      (getBestSplit ctx rate term subset st pos).2.1 = st.arena.length ∧
      (getBestSplit ctx rate term subset st pos).1.frontier =
        (if term = true then st.frontier else st.frontier ++ [st.arena.length]) ∧
      nd.subset = subset ∧ nd.selected = false ∧ nd.left = none ∧ nd.right = none ∧
      NodeOK ctx nd := by
  cases term with
  | true =>
    refine ⟨⟨subset, -1, 0, 0, false, none, none⟩, rfl, rfl, rfl, rfl, rfl, rfl, rfl,
      hrows, hsz, le_refl 0, fun hg => absurd hg (lt_irrefl 0)⟩
  | false =>
    have hscan := scanFeatures_spec ctx rate subset
      (subset.foldl (fun a id => a + ctx.y id) 0) ctx.features 0 pos (-1, 0, 0) rfl
      ⟨le_refl 0, fun hg => absurd hg (lt_irrefl 0)⟩
    refine ⟨⟨subset,
      (scanFeatures ctx rate subset (subset.foldl (fun a id => a + ctx.y id) 0)
        ctx.features 0 pos (-1, 0, 0)).1.1,
      toUInt16 (scanFeatures ctx rate subset (subset.foldl (fun a id => a + ctx.y id) 0)
        ctx.features 0 pos (-1, 0, 0)).1.2.1,
      (scanFeatures ctx rate subset (subset.foldl (fun a id => a + ctx.y id) 0)
        ctx.features 0 pos (-1, 0, 0)).1.2.2, false, none, none⟩,
      rfl, rfl, rfl, rfl, rfl, rfl, rfl, hrows, hsz, hscan.1, ?_⟩
    intro hg
    obtain ⟨fid, -, hlen, h1, hemp, hhist⟩ := hscan.2 hg
    have hfmem : ctx.features.getD fid default ∈ ctx.features :=
      getD_mem_of_lt ctx.features fid hlen
    obtain ⟨hml, hvlen, hvlt, htlt⟩ := hv
    have hcodes : ∀ id ∈ subset, (featValsOf (ctx.features.getD fid default)).getD id 0 <
        (ctx.features.getD fid default).transitions.length + 1 := by
      intro id hid
      have hidlen : id < (featValsOf (ctx.features.getD fid default)).length := by
        rw [hvlen _ hfmem hemp]
        exact hrows id hid
      exact hvlt _ hfmem _ (getD_mem_of_lt _ id hidlen)
    have hslen : (histFor ctx (ctx.features.getD fid default) subset
        (subset.foldl (fun a id => a + ctx.y id) 0)).sumy.length =
        (histFor ctx (ctx.features.getD fid default) subset
          (subset.foldl (fun a id => a + ctx.y id) 0)).cnt.length := by
      rw [histFor_sumy_length, histFor_cnt_length]
    have hchar := gbs_char ctx.minLeaf _ hslen
    rw [hhist] at hchar
    rcases hchar with ⟨heq, -⟩ | ⟨j, heq, hvalid, -, -, -⟩
    · have : (scanFeatures ctx rate subset (subset.foldl (fun a id => a + ctx.y id) 0)
          ctx.features 0 pos (-1, 0, 0)).1.2.2 = 0 := congrArg Prod.snd heq
      rw [this] at hg
      exact absurd hg (lt_irrefl 0)
    · have hfvj : (scanFeatures ctx rate subset (subset.foldl (fun a id => a + ctx.y id) 0)
          ctx.features 0 pos (-1, 0, 0)).1.2.1 = (j : ℤ) := congrArg Prod.fst heq
      obtain ⟨hjnum, hcl, hcr⟩ := hvalid
      have hjT : j + 1 < (ctx.features.getD fid default).transitions.length + 1 := by
        have := histFor_cnt_length ctx (ctx.features.getD fid default) subset
          (subset.foldl (fun a id => a + ctx.y id) 0)
        unfold Histogram.num at hjnum
        omega
      have hj65536 : j < 65536 := by
        have := htlt _ hfmem
        omega
      have hfv : toUInt16 (scanFeatures ctx rate subset
          (subset.foldl (fun a id => a + ctx.y id) 0)
          ctx.features 0 pos (-1, 0, 0)).1.2.1 = j := by
        rw [hfvj]
        exact toUInt16_of_lt hj65536
      have hcleq := histFor_cntLeftAt ctx (ctx.features.getD fid default) subset
        (subset.foldl (fun a id => a + ctx.y id) 0) hcodes j
      have htc := histFor_totalCnt ctx (ctx.features.getD fid default) subset
        (subset.foldl (fun a id => a + ctx.y id) 0)
      have hsplen := splitPair_length subset
        (featValsOf (ctx.features.getD fid default)) j
      have hleft : (splitPair subset (featValsOf (ctx.features.getD fid default)) j).1 =
          subset.filter (fun id => decide
            ((featValsOf (ctx.features.getD fid default)).getD id 0 ≤ j)) := rfl
      refine ⟨by rw [h1]; exact Int.natCast_nonneg fid, ?_, ?_, ?_, ?_⟩
      · rw [h1]
        simpa using hlen
      · rw [h1]
        simpa using hemp
      · rw [h1]
        simp only [Int.toNat_natCast]
        rw [hfv, hleft, ← hcleq]
        exact hcl
      · rw [h1]
        simp only [Int.toNat_natCast]
        rw [hfv]
        rw [hleft, ← hcleq] at hsplen
        rw [htc] at hcr
        omega


/-! ### Characterization of the frontier scan -/

theorem forall_mem_of_forall_getD {fr : List ℕ} {P : ℕ → Prop}
    (h : ∀ p, p < fr.length → P (fr.getD p 0)) : ∀ i ∈ fr, P i := by
  intro i hi
  obtain ⟨n, hn, rfl⟩ := List.mem_iff_getElem.mp hi
  have : fr.getD n 0 = fr[n] := by
    rw [List.getD_eq_getElem?_getD, List.getElem?_eq_getElem hn]
    rfl
  rw [← this]
  exact h n hn

theorem findBestLoop_spec (arena : List SplitNode) (fr0 : List ℕ) :
    ∀ (fr : List ℕ) (k0 : ℕ) (bg : ℚ) (best : Option ℕ),
      fr = fr0.drop k0 →
      ((best = none ∧ bg = 0 ∧
          ∀ p, p < k0 → (arena.getD (fr0.getD p 0) default).gain ≤ 0)
        ∨ (∃ kb, best = some kb ∧ kb < k0 ∧ kb < fr0.length ∧
            (arena.getD (fr0.getD kb 0) default).gain = bg ∧ 0 < bg ∧
            (∀ p, p < k0 → (arena.getD (fr0.getD p 0) default).gain ≤ bg) ∧
            (∀ p, p < kb → (arena.getD (fr0.getD p 0) default).gain < bg))) →
      ((findBestLoop arena fr k0 bg best = none ∧
          ∀ p, p < fr0.length → (arena.getD (fr0.getD p 0) default).gain ≤ 0)
        ∨ (∃ kb, findBestLoop arena fr k0 bg best = some kb ∧ kb < fr0.length ∧
            0 < (arena.getD (fr0.getD kb 0) default).gain ∧
            (∀ p, p < fr0.length →
              (arena.getD (fr0.getD p 0) default).gain ≤
                (arena.getD (fr0.getD kb 0) default).gain) ∧
            (∀ p, p < kb →
              (arena.getD (fr0.getD p 0) default).gain <
                (arena.getD (fr0.getD kb 0) default).gain))) := by
  intro fr
  induction fr with
  | nil =>
    intro k0 bg best hdrop hinv
    have hk0 : fr0.length ≤ k0 := List.drop_eq_nil_iff.mp hdrop.symm
    rcases hinv with ⟨hb, hbg, hle⟩ | ⟨kb, hb, hkb, hkblen, hgkb, hpos, hle, hstrict⟩
    · left
      exact ⟨by rw [findBestLoop, hb], fun p hp => hle p (by omega)⟩
    · right
      refine ⟨kb, by rw [findBestLoop, hb], hkblen, by rw [hgkb]; exact hpos,
        fun p hp => by rw [hgkb]; exact hle p (by omega),
        fun p hp => by rw [hgkb]; exact hstrict p hp⟩
  | cons i rest ih =>
    intro k0 bg best hdrop hinv
    obtain ⟨hget, hdrop', hlt⟩ := List.drop_cons_facts 0 k0 fr0 i rest hdrop.symm
    have hbgnn : 0 ≤ bg := by
      rcases hinv with ⟨-, rfl, -⟩ | ⟨kb, -, -, -, -, hpos, -, -⟩
      · exact le_refl 0
      · exact le_of_lt hpos
    have hub : ∀ p, p < k0 → (arena.getD (fr0.getD p 0) default).gain ≤ bg := by
      rcases hinv with ⟨-, rfl, hle⟩ | ⟨kb, -, -, -, -, -, hle, -⟩
      · exact hle
      · exact hle
    rw [findBestLoop]
    by_cases hup : bg < (arena.getD i default).gain
    · rw [if_pos hup]
      refine ih (k0 + 1) (arena.getD i default).gain (some k0) hdrop'.symm
        (Or.inr ⟨k0, rfl, by omega, hlt, by rw [hget],
          lt_of_le_of_lt hbgnn hup, ?_, ?_⟩)
      · intro p hp
        rcases Nat.lt_succ_iff_lt_or_eq.mp hp with hp' | rfl
        · exact le_of_lt (lt_of_le_of_lt (hub p hp') hup)
        · rw [hget]
      · intro p hp
        exact lt_of_le_of_lt (hub p hp) hup
    · rw [if_neg hup]
      have hile : (arena.getD i default).gain ≤ bg := le_of_not_lt hup
      refine ih (k0 + 1) bg best hdrop'.symm ?_
      rcases hinv with ⟨hb, hbg, hle⟩ | ⟨kb, hb, hkb, hkblen, hgkb, hpos, hle, hstrict⟩
      · refine Or.inl ⟨hb, hbg, fun p hp => ?_⟩
        rcases Nat.lt_succ_iff_lt_or_eq.mp hp with hp' | rfl
        · exact hle p hp'
        · rw [hget, ← hbg]; exact hile
      · refine Or.inr ⟨kb, hb, by omega, hkblen, hgkb, hpos, fun p hp => ?_, hstrict⟩
        rcases Nat.lt_succ_iff_lt_or_eq.mp hp with hp' | rfl
        · exact hle p hp'
        · rw [hget]; exact hile

theorem findBest_spec (st : GrowState) :
    (findBest st = none ∧ ∀ i ∈ st.frontier, (st.arena.getD i default).gain ≤ 0)
    ∨ (∃ kb, findBest st = some kb ∧ kb < st.frontier.length ∧
        0 < (st.arena.getD (st.frontier.getD kb 0) default).gain ∧
        (∀ i ∈ st.frontier, (st.arena.getD i default).gain ≤
          (st.arena.getD (st.frontier.getD kb 0) default).gain) ∧
        (∀ p, p < kb →
          (st.arena.getD (st.frontier.getD p 0) default).gain <
            (st.arena.getD (st.frontier.getD kb 0) default).gain)) := by
  have h0 := findBestLoop_spec st.arena st.frontier st.frontier 0 0 none rfl
    (Or.inl ⟨rfl, rfl, fun p hp => by omega⟩)
  rcases h0 with ⟨hres, hle⟩ | ⟨kb, hres, hkb, hpos, hle, hstrict⟩
  · left
    exact ⟨hres, forall_mem_of_forall_getD hle⟩
  · right
    exact ⟨kb, hres, hkb, hpos, forall_mem_of_forall_getD hle, hstrict⟩

/-! ### Claim C1 -/

/-- Claim C1: for every histogram with at least one bin (and a positive
`min_leaf_examples` flag, as in the deployed configuration),
`getBestSplitFromHistogram` returns the earliest boundary index among those
whose left and right cumulative counts are both at least `min_leaf_examples`
that maximizes `gain(idx) = lossBefore - lossAfter(idx)`, provided that
maximal gain is strictly positive (ties resolved to the lowest index by the
strict `>` comparison); otherwise it returns the sentinel `(-1, 0)`.
Moreover the early break once `cntRight < min_leaf_examples` does not change
the result relative to scanning all boundary indices. -/
theorem claim_C1 (minLeaf : ℕ) (h : Histogram) (hml : 1 ≤ minLeaf)
    (hnum : 1 ≤ h.num) (hlen : h.sumy.length = h.cnt.length) :
    EvalChar minLeaf h (getBestSplitFromHistogram minLeaf h) ∧
    getBestSplitFromHistogram minLeaf h = getBestSplitFromHistogramNB minLeaf h :=
  ⟨gbs_char minLeaf h hlen, gbs_eq_NB minLeaf h⟩

/-- Witness for C1 at the concrete two-bin histogram of one row with target 0
and one row with target 1, `min_leaf_examples = 1`. -/
theorem claim_C1_witness :
    EvalChar 1 ⟨[1, 1], [0, 1], 2, 1⟩ (getBestSplitFromHistogram 1 ⟨[1, 1], [0, 1], 2, 1⟩) ∧
    getBestSplitFromHistogram 1 ⟨[1, 1], [0, 1], 2, 1⟩ =
      getBestSplitFromHistogramNB 1 ⟨[1, 1], [0, 1], 2, 1⟩ :=
  claim_C1 1 ⟨[1, 1], [0, 1], 2, 1⟩ (by decide) (by decide) (by decide)

/-! ### Claim C2 -/

/-- Claim C2: whenever `splitExamples` partitions a node's subset (as it does
for every node selected for expansion during growth), the left and right
subsets partition the parent's subset exactly — multiset-exactly (none
dropped, none duplicated), disjointly — and a row goes left iff its encoded
value for the node's chosen feature is `≤` the threshold `fv`, else right. -/
theorem claim_C2 (ctx : Ctx) (nd : SplitNode) (l r : List ℕ)
    (hs : splitExamples ctx nd = some (l, r)) :
    (∀ x, l.count x + r.count x = nd.subset.count x) ∧
    l.length + r.length = nd.subset.length ∧
    (∀ x, x ∈ l → x ∉ r) ∧
    (∀ x, x ∈ nd.subset ↔ x ∈ l ∨ x ∈ r) ∧
    (∀ x, x ∈ l ↔ x ∈ nd.subset ∧
      (featValsOf (ctx.features.getD nd.fid.toNat default)).getD x 0 ≤ nd.fv) ∧
    (∀ x, x ∈ r ↔ x ∈ nd.subset ∧
      ¬ ((featValsOf (ctx.features.getD nd.fid.toNat default)).getD x 0 ≤ nd.fv)) := by
  obtain ⟨hl, hr⟩ := splitExamples_eq ctx nd l r hs
  subst hl
  subst hr
  refine ⟨splitPair_count _ _ _, splitPair_length _ _ _, ?_, ?_,
    splitPair_mem_left _ _ _, splitPair_mem_right _ _ _⟩
  · intro x hx hx'
    have h1 := (splitPair_mem_left _ _ _ x).mp hx
    have h2 := (splitPair_mem_right _ _ _ x).mp hx'
    exact h2.2 h1.2
  · intro x
    constructor
    · intro hx
      by_cases hp : (featValsOf (ctx.features.getD nd.fid.toNat default)).getD x 0 ≤ nd.fv
      · exact Or.inl ((splitPair_mem_left _ _ _ x).mpr ⟨hx, hp⟩)
      · exact Or.inr ((splitPair_mem_right _ _ _ x).mpr ⟨hx, hp⟩)
    · intro hx
      rcases hx with hx | hx
      · exact ((splitPair_mem_left _ _ _ x).mp hx).1
      · exact ((splitPair_mem_right _ _ _ x).mp hx).1

/-! ### The preorder visit of the split tree -/

theorem option_eq_some_getD {o : Option ℕ} (h : o.isSome = true) : o = some (o.getD 0) := by
  cases o with
  | none => simp at h
  | some a => rfl

theorem visitOrder_unsel (arena : List SplitNode) (i f : ℕ)
    (h : (arena.getD i default).selected = false) :
    visitOrder arena (f + 1) (some i) = [i] := by
  rw [visitOrder, if_neg (by simp only [Bool.not_eq_true]; exact h)]

theorem getD_set_append_lt {l tail : List SplitNode} {bi j : ℕ} {nd' : SplitNode}
    (hbi : bi < l.length) (hj : j < l.length) :
    ((l.set bi nd') ++ tail).getD j default = if j = bi then nd' else l.getD j default := by
  rw [List.getD_eq_getElem?_getD, List.getElem?_append_left (by simp [hj])]
  by_cases hjbi : j = bi
  · subst hjbi
    rw [List.getElem?_set_self hbi, if_pos rfl]
    rfl
  · rw [List.getElem?_set_ne (fun hc => hjbi hc.symm), if_neg hjbi]
    rw [List.getD_eq_getElem?_getD]

theorem getD_set_append_pair_fst (l : List SplitNode) (bi : ℕ) (nd' a b : SplitNode) :
    ((l.set bi nd') ++ [a, b]).getD l.length default = a := by
  rw [List.getD_eq_getElem?_getD, List.getElem?_append_right (by simp)]
  simp

theorem getD_set_append_pair_snd (l : List SplitNode) (bi : ℕ) (nd' a b : SplitNode) :
    ((l.set bi nd') ++ [a, b]).getD (l.length + 1) default = b := by
  rw [List.getD_eq_getElem?_getD, List.getElem?_append_right (by simp)]
  simp

theorem visitOrder_fuel (arena : List SplitNode)
    (hsel : ∀ j, j < arena.length → SelOKAt arena j) :
    ∀ (d j f1 f2 : ℕ), j < arena.length →
      arena.length - j ≤ d → arena.length - j ≤ f1 → arena.length - j ≤ f2 →
      visitOrder arena f1 (some j) = visitOrder arena f2 (some j) := by
  intro d
  induction d with
  | zero => intro j f1 f2 hj hd _ _; omega
  | succ d ih =>
    intro j f1 f2 hj hd h1 h2
    obtain ⟨f1', rfl⟩ : ∃ f1', f1 = f1' + 1 := ⟨f1 - 1, by omega⟩
    obtain ⟨f2', rfl⟩ : ∃ f2', f2 = f2' + 1 := ⟨f2 - 1, by omega⟩
    by_cases hjs : (arena.getD j default).selected = true
    · obtain ⟨-, -, hlso, hrso, hll, hlu, hrl, hru⟩ := hsel j hj hjs
      rw [visitOrder, if_pos hjs, visitOrder, if_pos hjs,
        option_eq_some_getD hlso, option_eq_some_getD hrso]
      rw [ih ((arena.getD j default).left.getD 0) f1' f2' hlu (by omega) (by omega) (by omega)]
      rw [ih ((arena.getD j default).right.getD 0) f1' f2' hru (by omega) (by omega) (by omega)]
    · have hjs' : (arena.getD j default).selected = false := by
        cases hsv : (arena.getD j default).selected with
        | true => exact absurd hsv hjs
        | false => rfl
      rw [visitOrder_unsel arena j f1' hjs', visitOrder_unsel arena j f2' hjs']

theorem visitOrder_expand (arena : List SplitNode)
    (hsel : ∀ j, j < arena.length → SelOKAt arena j)
    (bi : ℕ) (hbi : bi < arena.length)
    (hbisel : (arena.getD bi default).selected = false)
    (nd' ndL ndR : SplitNode)
    (hndsel : nd'.selected = true)
    (hndl : nd'.left = some arena.length)
    (hndr : nd'.right = some (arena.length + 1))
    (hLsel : ndL.selected = false) (hRsel : ndR.selected = false) :
    ∀ (f j : ℕ), j < arena.length → arena.length + 2 - j ≤ f →
      visitOrder ((arena.set bi nd') ++ [ndL, ndR]) f (some j) =
        (visitOrder arena f (some j)).flatMap
          (fun x => if x = bi then [bi, arena.length, arena.length + 1] else [x]) := by
  intro f
  induction f with
  | zero => intro j hj hf; omega
  | succ f ih =>
    intro j hj hf
    by_cases hjbi : j = bi
    · subst hjbi
      have hA2 : ((arena.set j nd') ++ [ndL, ndR]).getD j default = nd' := by
        rw [getD_set_append_lt hj hj, if_pos rfl]
      obtain ⟨f', rfl⟩ : ∃ f', f = f' + 1 := ⟨f - 1, by omega⟩
      have hfn : visitOrder ((arena.set j nd') ++ [ndL, ndR]) (f' + 1)
          (some arena.length) = [arena.length] :=
        visitOrder_unsel _ _ _ (by rw [getD_set_append_pair_fst]; exact hLsel)
      have hfn1 : visitOrder ((arena.set j nd') ++ [ndL, ndR]) (f' + 1)
          (some (arena.length + 1)) = [arena.length + 1] :=
        visitOrder_unsel _ _ _ (by rw [getD_set_append_pair_snd]; exact hRsel)
      have hL : visitOrder ((arena.set j nd') ++ [ndL, ndR]) (f' + 1 + 1) (some j) =
          [j, arena.length, arena.length + 1] := by
        rw [visitOrder, hA2, if_pos hndsel, hndl, hndr, hfn, hfn1]
        rfl
      have hR : visitOrder arena (f' + 1 + 1) (some j) = [j] := by
        rw [visitOrder, if_neg (by simp only [Bool.not_eq_true]; exact hbisel)]
      rw [hL, hR]
      simp
    · have hA2j : ((arena.set bi nd') ++ [ndL, ndR]).getD j default =
          arena.getD j default := by
        rw [getD_set_append_lt hbi hj, if_neg hjbi]
      by_cases hjs : (arena.getD j default).selected = true
      · obtain ⟨-, -, hlso, hrso, hll, hlu, hrl, hru⟩ := hsel j hj hjs
        rw [visitOrder, hA2j, if_pos hjs, visitOrder, if_pos hjs,
          option_eq_some_getD hlso, option_eq_some_getD hrso]
        rw [ih ((arena.getD j default).left.getD 0) hlu (by omega)]
        rw [ih ((arena.getD j default).right.getD 0) hru (by omega)]
        rw [List.flatMap_cons, List.flatMap_append, if_neg hjbi]
        simp
      · have hjs' : (arena.getD j default).selected = false := by
          cases hsv : (arena.getD j default).selected with
          | true => exact absurd hsv hjs
          | false => rfl
        obtain ⟨f', rfl⟩ : ∃ f', f = f' + 1 := ⟨f - 1, by omega⟩
        rw [visitOrder_unsel _ _ _ (by rw [hA2j]; exact hjs'),
          visitOrder_unsel _ _ _ hjs']
        simp [hjbi]

theorem count_range_eq (n x : ℕ) : (List.range n).count x = if x < n then 1 else 0 := by
  induction n with
  | zero => simp
  | succ n ih =>
    rw [List.range_succ, List.count_append, ih]
    by_cases hxn : x = n
    · subst hxn
      rw [if_neg (lt_irrefl x), if_pos (Nat.lt_succ_self x)]
      simp
    · have hcnt : List.count x [n] = 0 := by simp [hxn]
      rw [hcnt]
      by_cases hlt : x < n
      · rw [if_pos hlt, if_pos (by omega)]
      · rw [if_neg hlt, if_neg (by omega)]

theorem count_flatMap_expand (n bi : ℕ) (hbi : bi < n) :
    ∀ (l : List ℕ), (∀ a ∈ l, a < n) → ∀ x,
      (l.flatMap (fun a => if a = bi then [bi, n, n + 1] else [a])).count x =
        l.count x + (if x = n ∨ x = n + 1 then l.count bi else 0) := by
  intro l
  induction l with
  | nil => intro _ x; simp
  | cons a rest ih =>
    intro hmem x
    have ha : a < n := hmem a (by simp)
    rw [List.flatMap_cons, List.count_append, ih (fun b hb => hmem b (by simp [hb])) x]
    have hbn : ¬ (bi = n) := by omega
    have hbn1 : ¬ (bi = n + 1) := by omega
    have hnb : ¬ (n = bi) := by omega
    have hn1b : ¬ (n + 1 = bi) := by omega
    by_cases hab : a = bi
    · rw [hab, if_pos rfl]
      by_cases hxbi : x = bi <;> by_cases hxn : x = n <;> by_cases hxn1 : x = n + 1 <;>
        simp [hxbi, hxn, hxn1, hbn, hbn1, hnb, hn1b, List.count_cons] <;> omega
    · rw [if_neg hab]
      by_cases hxa : x = a <;> by_cases hxn : x = n <;> by_cases hxn1 : x = n + 1 <;>
        by_cases hxbi : x = bi <;>
        simp [hxa, hxn, hxn1, hxbi, hab, hbn, hbn1, hnb, hn1b, List.count_cons] <;> omega

theorem mem_eraseIdx_ne (l : List ℕ) :
    ∀ (k : ℕ), l.Nodup → k < l.length → ∀ x ∈ l.eraseIdx k, x ≠ l.getD k 0 := by
  induction l with
  | nil => intro k _ hk; simp at hk
  | cons a rest ih =>
    intro k hnd hk x hx
    cases k with
    | zero =>
      simp only [List.eraseIdx_cons_zero] at hx
      simp only [List.getD_cons_zero]
      intro hcontra
      subst hcontra
      exact (List.nodup_cons.mp hnd).1 hx
    | succ k' =>
      simp only [List.eraseIdx_cons_succ] at hx
      simp only [List.getD_cons_succ]
      rcases List.mem_cons.mp hx with rfl | hx'
      · intro hcontra
        have : rest.getD k' 0 ∈ rest := getD_mem_of_lt rest k' (by simpa using hk)
        rw [← hcontra] at this
        exact (List.nodup_cons.mp hnd).1 this
      · exact ih k' (List.nodup_cons.mp hnd).2 (by simpa using hk) x hx'

/-! ### Expansion preserves the arena invariant -/

theorem splitExamples_of_posgain (ctx : Ctx) (nd : SplitNode)
    (hfid : 0 ≤ nd.fid) (hlen : nd.fid.toNat < ctx.features.length)
    (hemp : (ctx.features.getD nd.fid.toNat default).encoding ≠ Encoding.EMPTY) :
    splitExamples ctx nd =
      some (splitPair nd.subset
        (featValsOf (ctx.features.getD nd.fid.toNat default)) nd.fv) := by
  unfold splitExamples
  rw [if_pos ⟨hfid, hlen⟩]
  cases henc : (ctx.features.getD nd.fid.toNat default).encoding with
  | EMPTY => exact absurd henc hemp
  | BYTE =>
    have hvals : featValsOf (ctx.features.getD nd.fid.toNat default) =
        (ctx.features.getD nd.fid.toNat default).bvec := by
      unfold featValsOf
      rw [henc]
    rw [hvals]
  | SHORT =>
    have hvals : featValsOf (ctx.features.getD nd.fid.toNat default) =
        (ctx.features.getD nd.fid.toNat default).svec := by
      unfold featValsOf
      rw [henc]
    rw [hvals]

theorem expandAt_spec (ctx : Ctx) (hv : ValidCtx ctx) (rate : ℚ) (term : Bool)
    (st : GrowState) (k pos : ℕ) (hinv : ArenaInv ctx st) (hk : k < st.frontier.length)
    (hgain : 0 < (st.arena.getD (st.frontier.getD k 0) default).gain)
    (lr : List ℕ × List ℕ)
    (hse : splitExamples ctx (st.arena.getD (st.frontier.getD k 0) default) = some lr) :
    ArenaInv ctx (expandAt ctx rate term st k lr pos).1 := by
  obtain ⟨hnodes, hselok, hfront, hnodup, hperm⟩ := hinv
  have hbiMem : st.frontier.getD k 0 ∈ st.frontier := getD_mem_of_lt st.frontier k hk
  have hbin : st.frontier.getD k 0 < st.arena.length := (hfront _ hbiMem).1
  have hbisel : (st.arena.getD (st.frontier.getD k 0) default).selected = false :=
    (hfront _ hbiMem).2
  have hbsMem : st.arena.getD (st.frontier.getD k 0) default ∈ st.arena :=
    getD_mem_of_lt _ _ hbin
  have hok := hnodes _ hbsMem
  have hpos := hok.2.2.2 hgain
  have hlr : lr = splitPair (st.arena.getD (st.frontier.getD k 0) default).subset
      (featValsOf (ctx.features.getD
        (st.arena.getD (st.frontier.getD k 0) default).fid.toNat default))
      (st.arena.getD (st.frontier.getD k 0) default).fv := by
    have hspl := splitExamples_of_posgain ctx _ hpos.1 hpos.2.1 hpos.2.2.1
    rw [hspl] at hse
    exact (Option.some.inj hse).symm
  have hrowsL : ∀ id ∈ lr.1, id < ctx.numExamples := by
    intro id hid
    rw [hlr] at hid
    exact hok.1 id ((splitPair_mem_left _ _ _ id).mp hid).1
  have hrowsR : ∀ id ∈ lr.2, id < ctx.numExamples := by
    intro id hid
    rw [hlr] at hid
    exact hok.1 id ((splitPair_mem_right _ _ _ id).mp hid).1
  have hszL : ctx.minLeaf ≤ lr.1.length := by
    rw [hlr]
    exact hpos.2.2.2.1
  have hszR : ctx.minLeaf ≤ lr.2.length := by
    rw [hlr]
    exact hpos.2.2.2.2
  simp only [expandAt]
  obtain ⟨ndL, hA1, hI1, hF1, hsubL, hselL, hlL, hrL, hokL⟩ :=
    getBestSplit_spec ctx hv rate term lr.1
      ⟨st.arena.set (st.frontier.getD k 0)
        { st.arena.getD (st.frontier.getD k 0) default with selected := true },
        st.frontier.eraseIdx k⟩ pos hrowsL hszL
  obtain ⟨ndR, hA2, hI2, hF2, hsubR, hselR, hlR, hrR, hokR⟩ :=
    getBestSplit_spec ctx hv rate term lr.2
      (getBestSplit ctx rate term lr.1
        ⟨st.arena.set (st.frontier.getD k 0)
          { st.arena.getD (st.frontier.getD k 0) default with selected := true },
          st.frontier.eraseIdx k⟩ pos).1
      (getBestSplit ctx rate term lr.1
        ⟨st.arena.set (st.frontier.getD k 0)
          { st.arena.getD (st.frontier.getD k 0) default with selected := true },
          st.frontier.eraseIdx k⟩ pos).2.2 hrowsR hszR
  have hI1' : (getBestSplit ctx rate term lr.1
      ⟨st.arena.set (st.frontier.getD k 0)
        { st.arena.getD (st.frontier.getD k 0) default with selected := true },
        st.frontier.eraseIdx k⟩ pos).2.1 = st.arena.length := by
    rw [hI1]
    simp [List.length_set]
  have hI2' : (getBestSplit ctx rate term lr.2
      (getBestSplit ctx rate term lr.1
        ⟨st.arena.set (st.frontier.getD k 0)
          { st.arena.getD (st.frontier.getD k 0) default with selected := true },
          st.frontier.eraseIdx k⟩ pos).1
      (getBestSplit ctx rate term lr.1
        ⟨st.arena.set (st.frontier.getD k 0)
          { st.arena.getD (st.frontier.getD k 0) default with selected := true },
          st.frontier.eraseIdx k⟩ pos).2.2).2.1 = st.arena.length + 1 := by
    rw [hI2, hA1]
    simp [List.length_set]
  rw [hI1', hI2', hA2, hA1]
  have hset2 : ((((st.arena.set (st.frontier.getD k 0)
      { st.arena.getD (st.frontier.getD k 0) default with selected := true }) ++ [ndL])
        ++ [ndR]).set (st.frontier.getD k 0)
      { st.arena.getD (st.frontier.getD k 0) default with selected := true, left := some st.arena.length, right := some (st.arena.length + 1) }) =
      (st.arena.set (st.frontier.getD k 0)
        { st.arena.getD (st.frontier.getD k 0) default with selected := true, left := some st.arena.length, right := some (st.arena.length + 1) })
        ++ [ndL, ndR] := by
    have h1 : st.frontier.getD k 0 < (st.arena.set (st.frontier.getD k 0)
        { st.arena.getD (st.frontier.getD k 0) default with selected := true }).length := by
      rw [List.length_set]
      exact hbin
    have h2 : st.frontier.getD k 0 < ((st.arena.set (st.frontier.getD k 0)
        { st.arena.getD (st.frontier.getD k 0) default with selected := true })
          ++ [ndL]).length := by
      rw [List.length_append, List.length_set]
      omega
    rw [List.set_append_left _ _ h2, List.set_append_left _ _ h1, List.set_set,
      List.append_assoc]
    rfl
  rw [hset2]
  -- abbreviations for the remainder
  refine ⟨?_, ?_, ?_, ?_, ?_⟩
  case _ =>
    -- every node of the new arena is well formed
    intro nd hnd
    rcases List.mem_append.mp hnd with hnd1 | hnd2
    · rcases List.mem_or_eq_of_mem_set hnd1 with hmem | rfl
      · exact hnodes nd hmem
      · exact hok
    · rcases List.mem_cons.mp hnd2 with rfl | hnd3
      · exact hokL
      · rcases List.mem_cons.mp hnd3 with rfl | hcontra
        · exact hokR
        · exact absurd hcontra (List.not_mem_nil nd)
  case _ =>
    -- selected nodes have well-formed children links
    intro j hj
    have hA2len : ((st.arena.set (st.frontier.getD k 0)
        { st.arena.getD (st.frontier.getD k 0) default with selected := true, left := some st.arena.length, right := some (st.arena.length + 1) })
          ++ [ndL, ndR]).length = st.arena.length + 2 := by
      simp [List.length_set]
    rw [hA2len] at hj
    intro hjsel
    by_cases hjn : j < st.arena.length
    · rw [getD_set_append_lt hbin hjn] at hjsel ⊢
      by_cases hjbi : j = st.frontier.getD k 0
      · rw [if_pos hjbi] at hjsel ⊢
        refine ⟨hgain, hpos.1, rfl, rfl, ?_, ?_, ?_, ?_⟩
        · show j < st.arena.length
          omega
        · rw [hA2len]
          show st.arena.length < st.arena.length + 2
          omega
        · show j < st.arena.length + 1
          omega
        · rw [hA2len]
          show st.arena.length + 1 < st.arena.length + 2
          omega
      · rw [if_neg hjbi] at hjsel ⊢
        obtain ⟨h1, h2, h3, h4, h5, h6, h7, h8⟩ := hselok j hjn hjsel
        rw [hA2len]
        exact ⟨h1, h2, h3, h4, h5, by omega, h7, by omega⟩
    · -- the two new children are unselected
      have hjcase : j = st.arena.length ∨ j = st.arena.length + 1 := by omega
      rcases hjcase with rfl | rfl
      · rw [getD_set_append_pair_fst] at hjsel
        exact absurd hjsel (by simp [hselL])
      · rw [getD_set_append_pair_snd] at hjsel
        exact absurd hjsel (by simp [hselR])
  case _ =>
    -- frontier entries are in-range unselected nodes
    intro x hx
    rw [hF2, hF1] at hx
    have hxcases : x ∈ st.frontier.eraseIdx k ∨ x = st.arena.length ∨
        x = st.arena.length + 1 := by
      cases term with
      | true => simpa using Or.inl hx
      | false =>
        simp only [if_neg (by simp : ¬ (false = true))] at hx
        rcases List.mem_append.mp hx with hx1 | hx2
        · rcases List.mem_append.mp hx1 with hx3 | hx4
          · exact Or.inl hx3
          · refine Or.inr (Or.inl ?_)
            have := List.mem_singleton.mp hx4
            rw [this]
            simp [List.length_set]
        · refine Or.inr (Or.inr ?_)
          have := List.mem_singleton.mp hx2
          rw [this, hA1]
          simp [List.length_set]
    have hA2len : ((st.arena.set (st.frontier.getD k 0)
        { st.arena.getD (st.frontier.getD k 0) default with selected := true, left := some st.arena.length, right := some (st.arena.length + 1) })
          ++ [ndL, ndR]).length = st.arena.length + 2 := by
      simp [List.length_set]
    rcases hxcases with hx1 | rfl | rfl
    · have hxold : x ∈ st.frontier := (List.eraseIdx_sublist st.frontier k).subset hx1
      have hxlt : x < st.arena.length := (hfront x hxold).1
      have hxne : x ≠ st.frontier.getD k 0 := mem_eraseIdx_ne st.frontier k hnodup hk x hx1
      constructor
      · rw [hA2len]
        omega
      · rw [getD_set_append_lt hbin hxlt, if_neg hxne]
        exact (hfront x hxold).2
    · constructor
      · rw [hA2len]
        omega
      · rw [getD_set_append_pair_fst]
        exact hselL
    · constructor
      · rw [hA2len]
        omega
      · rw [getD_set_append_pair_snd]
        exact hselR
  case _ =>
    -- the new frontier is duplicate-free
    rw [hF2, hF1]
    have hend : (st.frontier.eraseIdx k).Nodup :=
      (List.eraseIdx_sublist st.frontier k).nodup hnodup
    have hfre : ∀ x ∈ st.frontier.eraseIdx k, x < st.arena.length := by
      intro x hx
      exact (hfront x ((List.eraseIdx_sublist st.frontier k).subset hx)).1
    cases term with
    | true => simpa using hend
    | false =>
      simp only [if_neg (by simp : ¬ (false = true))]
      rw [hA1]
      simp only [List.length_set, List.length_append, List.length_set, List.length_cons,
        List.length_nil]
      apply List.Nodup.append
      · apply List.Nodup.append hend (List.nodup_singleton _)
        intro a ha hb
        rw [List.mem_singleton.mp hb] at ha
        have := hfre _ ha
        omega
      · exact List.nodup_singleton _
      · intro a ha hb
        have hb' : a = st.arena.length + 1 := by
          have := List.mem_singleton.mp hb
          rw [this]
        rcases List.mem_append.mp ha with ha1 | ha2
        · have := hfre a ha1
          omega
        · have ha' : a = st.arena.length := by
            have := List.mem_singleton.mp ha2
            rw [this]
          omega
  case _ =>
    -- the visit order is a permutation of the arena indices
    have hA2len : ((st.arena.set (st.frontier.getD k 0)
        { st.arena.getD (st.frontier.getD k 0) default with selected := true, left := some st.arena.length, right := some (st.arena.length + 1) })
          ++ [ndL, ndR]).length = st.arena.length + 2 := by
      simp [List.length_set]
    rw [hA2len]
    have h0n : 0 < st.arena.length := by omega
    have hcntold : ∀ x, (visitOrder st.arena (st.arena.length + 2) (some 0)).count x =
        if x < st.arena.length then 1 else 0 := by
      intro x
      rw [visitOrder_fuel st.arena hselok st.arena.length 0 (st.arena.length + 2)
        st.arena.length h0n (by omega) (by omega) (by omega)]
      rw [List.perm_iff_count.mp hperm x, count_range_eq]
    have hmemold : ∀ a ∈ visitOrder st.arena (st.arena.length + 2) (some 0),
        a < st.arena.length := by
      intro a ha
      by_contra hge
      have := hcntold a
      rw [if_neg hge] at this
      exact (List.count_eq_zero.mp this) ha
    have hexp := visitOrder_expand st.arena hselok (st.frontier.getD k 0) hbin hbisel
      { st.arena.getD (st.frontier.getD k 0) default with selected := true, left := some st.arena.length, right := some (st.arena.length + 1) }
      ndL ndR rfl rfl rfl hselL hselR (st.arena.length + 2) 0 h0n (by omega)
    rw [hexp]
    rw [List.perm_iff_count]
    intro x
    rw [count_flatMap_expand st.arena.length (st.frontier.getD k 0) hbin _ hmemold x,
      hcntold x, count_range_eq]
    by_cases hx1 : x < st.arena.length
    · have hx1' : x < st.arena.length + 2 := by omega
      have hx2 : ¬ (x = st.arena.length ∨ x = st.arena.length + 1) := by omega
      rw [if_pos hx1, if_pos hx1', if_neg hx2]
    · by_cases hx2 : x = st.arena.length ∨ x = st.arena.length + 1
      · have hx1' : x < st.arena.length + 2 := by omega
        rw [if_neg hx1, if_pos hx2, if_pos hx1', hcntold _, if_pos hbin]
      · have hx1' : ¬ (x < st.arena.length + 2) := by omega
        rw [if_neg hx1, if_neg hx2, if_neg hx1']

/-! ### One-step facts about the growth loop -/

theorem getBestSplit_frontier (ctx : Ctx) (rate : ℚ) (term : Bool) (subset : List ℕ)
    (st : GrowState) (pos : ℕ) :
    (getBestSplit ctx rate term subset st pos).1.frontier =
      (if term = true then st.frontier else st.frontier ++ [st.arena.length]) := by
  cases term with
  | true => rfl
  | false => rfl

theorem getBestSplit_arena_len (ctx : Ctx) (rate : ℚ) (term : Bool) (subset : List ℕ)
    (st : GrowState) (pos : ℕ) :
    (getBestSplit ctx rate term subset st pos).1.arena.length = st.arena.length + 1 := by
  cases term with
  | true => simp [getBestSplit]
  | false => simp [getBestSplit]

theorem growStep_stop_inv (ctx : Ctx) (rate : ℚ) (nsp : ℕ) (st : GrowState)
    (ns pos : ℕ) (st' : GrowState) (ns' pos' : ℕ)
    (hstep : growStep ctx rate nsp st ns pos = StepResult.stop st' ns' pos') :
    st' = st ∧ ns' = ns ∧ pos' = pos ∧ findBest st = none := by
  unfold growStep at hstep
  split at hstep
  · exact absurd hstep (by simp)
  · split at hstep
    · rename_i hfb
      injection hstep with h1 h2 h3
      exact ⟨h1.symm, h2.symm, h3.symm, hfb⟩
    · rename_i k hfb
      split at hstep
      · exact absurd hstep (by simp)
      · split at hstep
        · exact absurd hstep (by simp)
        · exact absurd hstep (by simp)

theorem growStep_stop_of_none (ctx : Ctx) (rate : ℚ) (nsp : ℕ) (st : GrowState)
    (ns pos : ℕ) (hlen : st.frontier.length = ns + 1) (hnone : findBest st = none) :
    growStep ctx rate nsp st ns pos = StepResult.stop st ns pos := by
  unfold growStep
  rw [if_neg (by omega), hnone]

theorem growStep_next_inv (ctx : Ctx) (rate : ℚ) (nsp : ℕ) (st : GrowState)
    (ns pos : ℕ) (st' : GrowState) (ns' pos' : ℕ)
    (hlen : st.frontier.length = ns + 1)
    (hstep : growStep ctx rate nsp st ns pos = StepResult.next st' ns' pos') :
    ns' = ns + 1 ∧
    st'.frontier.length = (if ns' = nsp then ns' - 1 else ns' + 1) ∧
    st'.arena.length = st.arena.length + 2 := by
  unfold growStep at hstep
  split at hstep
  · exact absurd hstep (by simp)
  · split at hstep
    · exact absurd hstep (by simp)
    · rename_i k hfb
      have hk : k < st.frontier.length := by
        rcases findBest_spec st with ⟨hres, -⟩ | ⟨kb, hres, hkb, -⟩
        · rw [hres] at hfb; exact absurd hfb (by simp)
        · rw [hres] at hfb
          injection hfb with hkk
          rw [← hkk]
          exact hkb
      split at hstep
      · exact absurd hstep (by simp)
      · split at hstep
        · exact absurd hstep (by simp)
        · rename_i lr hse
          injection hstep with h1 h2 h3
          subst h2
          refine ⟨rfl, ?_, ?_⟩
          · rw [← h1]
            simp only [expandAt, getBestSplit_frontier]
            by_cases hterm : ns + 1 = nsp
            · simp [hterm, List.length_eraseIdx_of_lt hk]
              omega
            · simp [hterm, List.length_eraseIdx_of_lt hk]
              omega
          · rw [← h1]
            simp [expandAt, getBestSplit_arena_len, List.length_set]

theorem growStep_sound (ctx : Ctx) (hv : ValidCtx ctx) (rate : ℚ) (nsp : ℕ)
    (st : GrowState) (ns pos : ℕ) (hinv : ArenaInv ctx st)
    (hlen : st.frontier.length = ns + 1) :
    (growStep ctx rate nsp st ns pos = StepResult.stop st ns pos ∧
      ∀ i ∈ st.frontier, (st.arena.getD i default).gain ≤ 0)
    ∨ (∃ st' pos', growStep ctx rate nsp st ns pos = StepResult.next st' (ns + 1) pos' ∧
        ArenaInv ctx st' ∧
        st'.frontier.length = (if ns + 1 = nsp then ns else ns + 2) ∧
        st'.arena.length = st.arena.length + 2) := by
  rcases findBest_spec st with ⟨hres, hle⟩ | ⟨kb, hres, hkb, hpos, hle, hstrict⟩
  · left
    exact ⟨growStep_stop_of_none ctx rate nsp st ns pos hlen hres, hle⟩
  · right
    have hbiMem : st.frontier.getD kb 0 ∈ st.frontier := getD_mem_of_lt st.frontier kb hkb
    have hbin : st.frontier.getD kb 0 < st.arena.length := (hinv.2.2.1 _ hbiMem).1
    have hok := hinv.1 _ (getD_mem_of_lt _ _ hbin)
    have hposg := hok.2.2.2 hpos
    have hse := splitExamples_of_posgain ctx
      (st.arena.getD (st.frontier.getD kb 0) default) hposg.1 hposg.2.1 hposg.2.2.1
    have hstep : growStep ctx rate nsp st ns pos =
        StepResult.next
          (expandAt ctx rate (decide (ns + 1 = nsp)) st kb
            (splitPair (st.arena.getD (st.frontier.getD kb 0) default).subset
              (featValsOf (ctx.features.getD
                (st.arena.getD (st.frontier.getD kb 0) default).fid.toNat default))
              (st.arena.getD (st.frontier.getD kb 0) default).fv) pos).1
          (ns + 1)
          (expandAt ctx rate (decide (ns + 1 = nsp)) st kb
            (splitPair (st.arena.getD (st.frontier.getD kb 0) default).subset
              (featValsOf (ctx.features.getD
                (st.arena.getD (st.frontier.getD kb 0) default).fid.toNat default))
              (st.arena.getD (st.frontier.getD kb 0) default).fv) pos).2 := by
      simp only [growStep, hres, hse,
        if_neg (show ¬ st.frontier.length ≠ ns + 1 by omega),
        if_neg (not_le.mpr hpos)]
    refine ⟨_, _, hstep, ?_, ?_, ?_⟩
    · exact expandAt_spec ctx hv rate (decide (ns + 1 = nsp)) st kb pos hinv hkb hpos _ hse
    · exact ((growStep_next_inv ctx rate nsp st ns pos _ _ _ hlen hstep).2).1
    · exact ((growStep_next_inv ctx rate nsp st ns pos _ _ _ hlen hstep).2).2

theorem growLoop_spec (ctx : Ctx) (hv : ValidCtx ctx) (rate : ℚ) (nsp : ℕ) :
    ∀ (fuel : ℕ) (st : GrowState) (ns pos : ℕ),
      ArenaInv ctx st → st.frontier.length = ns + 1 → ns ≤ nsp → nsp ≤ ns + fuel →
      ∃ stF nsF posF,
        growLoop ctx rate nsp fuel st ns pos = some (stF, nsF, posF) ∧
        ArenaInv ctx stF ∧ st.arena.length ≤ stF.arena.length ∧ ns ≤ nsF ∧
        nsF ≤ max nsp (ns + 1) ∧
        ((∀ i ∈ stF.frontier, (stF.arena.getD i default).gain ≤ 0) ∨ nsp ≤ nsF) := by
  intro fuel
  induction fuel with
  | zero =>
    intro st ns pos hinv hlen hns hnsp
    rcases growStep_sound ctx hv rate nsp st ns pos hinv hlen with
      ⟨hstep, hle⟩ | ⟨st', pos', hstep, hinv', hlen', harena⟩
    · refine ⟨st, ns, pos, ?_, hinv, le_refl _, le_refl ns, by omega, Or.inl hle⟩
      simp [growLoop, hstep]
    · refine ⟨st', ns + 1, pos', ?_, hinv', by omega, by omega, by omega, Or.inr (by omega)⟩
      have hexit : ¬ (ns + 1 < nsp) := by omega
      simp [growLoop, hstep, hexit]
  | succ fuel ih =>
    intro st ns pos hinv hlen hns hnsp
    rcases growStep_sound ctx hv rate nsp st ns pos hinv hlen with
      ⟨hstep, hle⟩ | ⟨st', pos', hstep, hinv', hlen', harena⟩
    · refine ⟨st, ns, pos, ?_, hinv, le_refl _, le_refl ns, by omega, Or.inl hle⟩
      simp [growLoop, hstep]
    · by_cases hcont : ns + 1 < nsp
      · have hlen'' : st'.frontier.length = (ns + 1) + 1 := by
          rw [hlen', if_neg (by omega)]
        obtain ⟨stF, nsF, posF, hloop, hinvF, hlenF, h1, h2, h3⟩ :=
          ih st' (ns + 1) pos' hinv' hlen'' (by omega) (by omega)
        refine ⟨stF, nsF, posF, ?_, hinvF, by omega, by omega, by omega, h3⟩
        rw [growLoop, hstep]
        show (if ns + 1 < nsp then growLoop ctx rate nsp fuel st' (ns + 1) pos'
          else some (st', ns + 1, pos')) = some (stF, nsF, posF)
        rw [if_pos hcont]
        exact hloop
      · refine ⟨st', ns + 1, pos', ?_, hinv', by omega, by omega, by omega, Or.inr (by omega)⟩
        simp [growLoop, hstep, hcont]

theorem getBestSplits_spec (ctx : Ctx) (hv : ValidCtx ctx) (rate : ℚ) (nsp : ℕ)
    (subset : List ℕ) (pos : ℕ)
    (hrows : ∀ id ∈ subset, id < ctx.numExamples) (hsz : ctx.minLeaf ≤ subset.length) :
    ∃ stF nsF posF,
      getBestSplits ctx rate nsp subset pos = some (stF, 0, nsF, posF) ∧
      ArenaInv ctx stF ∧ 1 ≤ stF.arena.length ∧ nsF ≤ max nsp 1 ∧
      ((∀ i ∈ stF.frontier, (stF.arena.getD i default).gain ≤ 0) ∨ nsp ≤ nsF) := by
  obtain ⟨nd0, hA, hI, hF, hsub, hsel, hl, hr, hok⟩ :=
    getBestSplit_spec ctx hv rate false subset ⟨[], []⟩ pos hrows hsz
  have hA' : (getBestSplit ctx rate false subset ⟨[], []⟩ pos).1.arena = [nd0] := by
    rw [hA]
    rfl
  have hF' : (getBestSplit ctx rate false subset ⟨[], []⟩ pos).1.frontier = [0] := by
    rw [hF]
    rfl
  have hI' : (getBestSplit ctx rate false subset ⟨[], []⟩ pos).2.1 = 0 := by
    rw [hI]
    rfl
  have hsel0 : (([nd0] : List SplitNode).getD 0 default).selected = false := hsel
  have hinv0 : ArenaInv ctx (getBestSplit ctx rate false subset ⟨[], []⟩ pos).1 := by
    refine ⟨?_, ?_, ?_, ?_, ?_⟩
    · intro nd hnd
      rw [hA'] at hnd
      have := List.mem_singleton.mp hnd
      rw [this]
      exact hok
    · intro j hj hjsel
      rw [hA'] at hj hjsel
      have hj0 : j = 0 := by
        simp only [List.length_singleton] at hj
        omega
      subst hj0
      exact absurd hjsel (by simp [hsel])
    · intro x hx
      rw [hF'] at hx
      have hx0 : x = 0 := List.mem_singleton.mp hx
      subst hx0
      rw [hA']
      exact ⟨by simp, hsel0⟩
    · rw [hF']
      exact List.nodup_singleton 0
    · rw [hA']
      have hvo : visitOrder [nd0] 1 (some 0) = [0] := visitOrder_unsel [nd0] 0 0 hsel0
      simp only [List.length_singleton, hvo]
      exact List.Perm.refl _
  obtain ⟨stF, nsF, posF, hloop, hinvF, hlenF, -, h2, h3⟩ :=
    growLoop_spec ctx hv rate nsp nsp (getBestSplit ctx rate false subset ⟨[], []⟩ pos).1
      0 (getBestSplit ctx rate false subset ⟨[], []⟩ pos).2.2 hinv0
      (by simp [hF']) (by omega) (by omega)
  have hlenF' : 1 ≤ stF.arena.length := by
    rw [hA'] at hlenF
    simpa using hlenF
  refine ⟨stF, nsF, posF, ?_, hinvF, hlenF', by simpa using h2, h3⟩
  simp only [getBestSplits, hloop, hI']

/-! ### The materializer `getTreeHelper` -/

theorem getD_append_lt' {l t : List SplitNode} {j : ℕ} (hj : j < l.length) :
    (l ++ t).getD j default = l.getD j default := by
  rw [List.getD_eq_getElem?_getD, List.getElem?_append_left hj,
    ← List.getD_eq_getElem?_getD]

theorem getD_append_self {l : List SplitNode} {a : SplitNode} :
    (l ++ [a]).getD l.length default = a := by
  rw [List.getD_eq_getElem?_getD, List.getElem?_append_right (le_refl _)]
  simp

theorem gainSumOver_range (f : ℕ) : ∀ (arena : List SplitNode),
    gainSumOver arena (List.range arena.length) f = arenaSelGainSum arena f := by
  intro arena
  induction arena using List.reverseRecOn with
  | nil => simp [gainSumOver, arenaSelGainSum]
  | append_singleton as a ih =>
    unfold gainSumOver arenaSelGainSum
    rw [List.length_append, List.length_singleton, List.range_succ,
      List.map_append, List.sum_append, List.filter_append]
    have h1 : (List.range as.length).map (nodeGainTerm (as ++ [a]) f) =
        (List.range as.length).map (nodeGainTerm as f) := by
      apply List.map_congr_left
      intro j hj
      unfold nodeGainTerm
      rw [getD_append_lt' (List.mem_range.mp hj)]
    rw [h1]
    have h2 : ((List.range as.length).map (nodeGainTerm as f)).sum =
        ((as.filter (fun nd => nd.selected && (nd.fid == (f : ℤ)))).map
          (fun nd => nd.gain)).sum := by
      have := ih
      unfold gainSumOver arenaSelGainSum at this
      exact this
    rw [h2]
    have h3 : ([as.length].map (nodeGainTerm (as ++ [a]) f)).sum =
        ((List.filter (fun nd => nd.selected && (nd.fid == (f : ℤ))) [a]).map
          (fun nd => nd.gain)).sum := by
      rw [List.filter_singleton]
      simp only [List.map_cons, List.map_nil, List.sum_cons, List.sum_nil]
      unfold nodeGainTerm
      rw [getD_append_self]
      by_cases hc : a.selected = true ∧ a.fid = (f : ℤ)
      · have hb : (a.selected && (a.fid == (f : ℤ))) = true := by
          simp [hc.1, hc.2]
        rw [if_pos hc, hb]
        simp
      · have hb : (a.selected && (a.fid == (f : ℤ))) = false := by
          rcases Decidable.not_and_iff_or_not.mp hc with h | h
          · simp [Bool.not_eq_true] at h
            simp [h]
          · simp [h]
        rw [if_neg hc, hb]
        simp
    rw [h3, List.map_append, List.sum_append]

theorem getTreeHelper_spec (ctx : Ctx) (arena : List SplitNode)
    (hnodes : ∀ nd ∈ arena, NodeOK ctx nd)
    (hsel : ∀ j, j < arena.length → SelOKAt arena j) :
    ∀ (d j fuel : ℕ) (fimps : ℕ → ℚ),
      j < arena.length → arena.length - j ≤ d → arena.length - j ≤ fuel →
      ∃ t fimps',
        getTreeHelper ctx arena fuel (some j) fimps = some (some t, fimps') ∧
        ∀ f, fimps' f = fimps f + gainSumOver arena (visitOrder arena fuel (some j)) f := by
  intro d
  induction d with
  | zero => intro j fuel fimps hj hd hf; omega
  | succ d ih =>
    intro j fuel fimps hj hd hf
    obtain ⟨fuel', rfl⟩ : ∃ f', fuel = f' + 1 := ⟨fuel - 1, by omega⟩
    have hmem : arena.getD j default ∈ arena := getD_mem_of_lt _ _ hj
    by_cases hjs : (arena.getD j default).selected = true
    · obtain ⟨hg, hfid, hlso, hrso, hll, hlu, hrl, hru⟩ := hsel j hj hjs
      obtain ⟨tL, fL, hL, hLs⟩ := ih ((arena.getD j default).left.getD 0) fuel'
        (fun x => if x = (arena.getD j default).fid.toNat then
          fimps x + (arena.getD j default).gain else fimps x)
        hlu (by omega) (by omega)
      obtain ⟨tR, fR, hR, hRs⟩ := ih ((arena.getD j default).right.getD 0) fuel' fL
        hru (by omega) (by omega)
      refine ⟨TreeNodeQ.node (arena.getD j default).fid.toNat (arena.getD j default).fv
        (ctx.leafVal (arena.getD j default).subset ctx.y) (some tL) (some tR), fR, ?_, ?_⟩
      · rw [getTreeHelper,
          if_neg (show ¬ ((arena.getD j default).selected = false) by rw [hjs]; decide),
          if_pos hfid]
        simp only []
        rw [option_eq_some_getD hlso, option_eq_some_getD hrso, hL]
        simp only []
        rw [hR]
      · intro f
        have hvo : visitOrder arena (fuel' + 1) (some j) =
            j :: (visitOrder arena fuel' (some ((arena.getD j default).left.getD 0)) ++
              visitOrder arena fuel' (some ((arena.getD j default).right.getD 0))) := by
          rw [visitOrder, if_pos hjs]
          conv_lhs => rw [option_eq_some_getD hlso, option_eq_some_getD hrso]
        rw [hvo, hRs f, hLs f]
        simp only [gainSumOver, nodeGainTerm, List.map_cons, List.sum_cons,
          List.map_append, List.sum_append]
        by_cases hfeq : (arena.getD j default).fid = (f : ℤ)
        · have hfn : f = (arena.getD j default).fid.toNat := by
            rw [hfeq]
            exact (Int.toNat_natCast f).symm
          rw [if_pos (show (arena.getD j default).selected = true ∧
              (arena.getD j default).fid = (f : ℤ) from And.intro hjs hfeq),
            if_pos hfn]
          ring
        · have hfn : ¬ (f = (arena.getD j default).fid.toNat) := by
            intro hc
            apply hfeq
            rw [hc]
            exact (Int.toNat_of_nonneg hfid).symm
          rw [if_neg (show ¬ ((arena.getD j default).selected = true ∧
              (arena.getD j default).fid = (f : ℤ)) from fun hc => hfeq hc.2),
            if_neg hfn]
          ring
    · have hjs' : (arena.getD j default).selected = false := by
        cases hsv : (arena.getD j default).selected with
        | true => exact absurd hsv hjs
        | false => rfl
      have hml : ctx.minLeaf ≤ (arena.getD j default).subset.length := (hnodes _ hmem).2.1
      refine ⟨TreeNodeQ.leaf (ctx.leafVal (arena.getD j default).subset ctx.y), fimps,
        ?_, ?_⟩
      · rw [getTreeHelper, if_pos hjs', if_pos hml]
      · intro f
        rw [visitOrder_unsel arena j fuel' hjs']
        simp only [gainSumOver, nodeGainTerm, List.map_cons, List.map_nil,
          List.sum_cons, List.sum_nil]
        rw [if_neg (show ¬ ((arena.getD j default).selected = true ∧
            (arena.getD j default).fid = (f : ℤ)) by
          intro hc
          rw [hjs'] at hc
          exact Bool.false_ne_true hc.1)]
        ring

theorem getTree_spec (ctx : Ctx) (hv : ValidCtx ctx) (numLeaves : ℕ)
    (exRate featRate : ℚ) (fimps : ℕ → ℚ) (pos : ℕ)
    (hbig : ctx.minLeaf * numLeaves ≤ (sampleSubset ctx exRate pos).1.length)
    (hL : 1 ≤ numLeaves) :
    ∃ stF nsF posF t fimps',
      getBestSplits ctx featRate (numLeaves - 1) (sampleSubset ctx exRate pos).1
        (sampleSubset ctx exRate pos).2 = some (stF, 0, nsF, posF) ∧
      ArenaInv ctx stF ∧
      getTree ctx numLeaves exRate featRate fimps pos = some (some t, fimps') ∧
      ∀ f, fimps' f = fimps f + arenaSelGainSum stF.arena f := by
  have hrows : ∀ id ∈ (sampleSubset ctx exRate pos).1, id < ctx.numExamples := by
    intro id hid
    unfold sampleSubset at hid
    exact List.mem_range.mp (List.mem_filter.mp hid).1
  have hsz : ctx.minLeaf ≤ (sampleSubset ctx exRate pos).1.length :=
    le_trans (Nat.le_mul_of_pos_right ctx.minLeaf (by omega)) hbig
  obtain ⟨stF, nsF, posF, heq, hinvF, hlenF, hb, hd⟩ :=
    getBestSplits_spec ctx hv featRate (numLeaves - 1) (sampleSubset ctx exRate pos).1
      (sampleSubset ctx exRate pos).2 hrows hsz
  obtain ⟨hnodes, hselok, hfront, hnodup, hperm⟩ := hinvF
  obtain ⟨t, fimps', hhelp, hsum⟩ := getTreeHelper_spec ctx stF.arena hnodes hselok
    stF.arena.length 0 stF.arena.length fimps (by omega) (by omega) (by omega)
  refine ⟨stF, nsF, posF, t, fimps', heq, ⟨hnodes, hselok, hfront, hnodup, hperm⟩, ?_, ?_⟩
  · unfold getTree
    rw [if_neg (not_lt.mpr hbig), heq]
    exact hhelp
  · intro f
    rw [hsum f]
    have hbridge : gainSumOver stF.arena
        (visitOrder stF.arena stF.arena.length (some 0)) f =
        gainSumOver stF.arena (List.range stF.arena.length) f := by
      unfold gainSumOver
      exact (hperm.map (nodeGainTerm stF.arena f)).sum_eq
    rw [hbridge, gainSumOver_range]

/-- Witness for C2: the root split of the two-row context partitions `[0, 1]`
into `[0]` and `[1]`. -/
theorem claim_C2_witness :
    (∀ x, List.count x [0] + List.count x [1] =
      List.count x (SplitNode.subset ⟨[0, 1], 0, 0, 2, false, none, none⟩)) ∧
    List.length [0] + List.length [1] = ([0, 1] : List ℕ).length ∧
    (∀ x, x ∈ ([0] : List ℕ) → x ∉ ([1] : List ℕ)) ∧
    (∀ x, x ∈ ([0, 1] : List ℕ) ↔ x ∈ ([0] : List ℕ) ∨ x ∈ ([1] : List ℕ)) ∧
    (∀ x, x ∈ ([0] : List ℕ) ↔ x ∈ ([0, 1] : List ℕ) ∧
      (featValsOf (exCtx2.features.getD (Int.toNat 0) default)).getD x 0 ≤ 0) ∧
    (∀ x, x ∈ ([1] : List ℕ) ↔ x ∈ ([0, 1] : List ℕ) ∧
      ¬ ((featValsOf (exCtx2.features.getD (Int.toNat 0) default)).getD x 0 ≤ 0)) :=
  claim_C2 exCtx2 ⟨[0, 1], 0, 0, 2, false, none, none⟩ [0] [1] (by decide)

/-! ### Concrete run evaluations -/

set_option maxHeartbeats 1000000 in
theorem ex2_run_ns1 : getBestSplits exCtx2 1 1 [0, 1] 0 = some (exFinal2T, 0, 1, 1) := by
  norm_num [growStep, expandAt, growLoop, getBestSplits, getBestSplit, findBest, findBestLoop,
    splitExamples, splitPair, scanFeatures, histFor, buildHistogram, bumpHist, emptyHistogram,
    getBestSplitFromHistogram, gbsLoop, zsOf, lossBefore, Histogram.num, biasedCoinFlip,
    toUInt16, featValsOf, exCtx2, exCtx8, exRoot8, exState8, exFinal2T, exFinal2N,
    List.filter, List.foldl]
  decide

set_option maxHeartbeats 1000000 in
theorem ex2_run_ns0 : getBestSplits exCtx2 1 0 [0, 1] 0 = some (exFinal2N, 0, 1, 3) := by
  norm_num [growStep, expandAt, growLoop, getBestSplits, getBestSplit, findBest, findBestLoop,
    splitExamples, splitPair, scanFeatures, histFor, buildHistogram, bumpHist, emptyHistogram,
    getBestSplitFromHistogram, gbsLoop, zsOf, lossBefore, Histogram.num, biasedCoinFlip,
    toUInt16, featValsOf, exCtx2, exCtx8, exRoot8, exState8, exFinal2T, exFinal2N,
    List.filter, List.foldl]
  decide

set_option maxHeartbeats 1000000 in
theorem ex8_step1 : growStep exCtx8 1 2 exRoot8 0 1 = StepResult.next exState8 1 3 := by
  norm_num [growStep, expandAt, growLoop, getBestSplits, getBestSplit, findBest, findBestLoop,
    splitExamples, splitPair, scanFeatures, histFor, buildHistogram, bumpHist, emptyHistogram,
    getBestSplitFromHistogram, gbsLoop, zsOf, lossBefore, Histogram.num, biasedCoinFlip,
    toUInt16, featValsOf, exCtx2, exCtx8, exRoot8, exState8, exFinal2T, exFinal2N,
    List.filter, List.foldl]
  decide

set_option maxHeartbeats 1000000 in
theorem ex8_findBest : findBest exState8 = some 0 := by
  norm_num [findBest, findBestLoop, exState8]

set_option maxHeartbeats 1000000 in
theorem ex8_step2 : growStep exCtx8 1 2 exState8 1 3 = StepResult.next exFinal8 2 3 := by
  norm_num [growStep, expandAt, growLoop, getBestSplits, getBestSplit, findBest, findBestLoop,
    splitExamples, splitPair, scanFeatures, histFor, buildHistogram, bumpHist, emptyHistogram,
    getBestSplitFromHistogram, gbsLoop, zsOf, lossBefore, Histogram.num, biasedCoinFlip,
    toUInt16, featValsOf, exCtx8, exState8, exFinal8, List.filter, List.foldl]

/-! ### Claim C3 -/

/-- Claim C3 (amended): at the start of every select-expand iteration — where
the code `CHECK`s it — the frontier size equals the number of selected nodes
plus one, and an expansion that creates non-terminal children preserves this;
but after the expansion whose two children are terminal (the `numSplits`-th
selection, after which the loop exits without re-checking), the frontier size
is the number of selected nodes minus one, not plus one. -/
theorem claim_C3 (ctx : Ctx) (rate : ℚ) (nsp : ℕ) (st : GrowState) (ns pos : ℕ)
    (st' : GrowState) (ns' pos' : ℕ) (hlen : st.frontier.length = ns + 1) :
    (growStep ctx rate nsp st ns pos = StepResult.stop st' ns' pos' →
      st' = st ∧ ns' = ns ∧ st'.frontier.length = ns' + 1) ∧
    (growStep ctx rate nsp st ns pos = StepResult.next st' ns' pos' →
      ns' = ns + 1 ∧
      st'.frontier.length = (if ns' = nsp then ns' - 1 else ns' + 1)) := by
  constructor
  · intro hstep
    obtain ⟨h1, h2, h3, h4⟩ := growStep_stop_inv ctx rate nsp st ns pos st' ns' pos' hstep
    exact ⟨h1, h2, by rw [h1, h2, hlen]⟩
  · intro hstep
    obtain ⟨h1, h2, h3⟩ := growStep_next_inv ctx rate nsp st ns pos st' ns' pos' hlen hstep
    exact ⟨h1, h2⟩

/-- Witness for C3 (amended) at the concrete first expansion of the eight-row
run (`numSplits = 2`, children non-terminal). -/
theorem claim_C3_witness :
    (growStep exCtx8 1 2 exRoot8 0 1 = StepResult.stop exState8 1 3 →
      exState8 = exRoot8 ∧ 1 = 0 ∧ exState8.frontier.length = 1 + 1) ∧
    (growStep exCtx8 1 2 exRoot8 0 1 = StepResult.next exState8 1 3 →
      1 = 0 + 1 ∧
      exState8.frontier.length = (if 1 = 2 then 1 - 1 else 1 + 1)) :=
  claim_C3 exCtx8 1 2 exRoot8 0 1 exState8 1 3 (by decide)

/-- Counterexample for C3 as stated: in the two-row run with `numSplits = 1`
the terminal expansion leaves the frontier empty while one node is selected,
so the frontier size is not `selected + 1` after that expansion step. -/
theorem claim_C3_counterexample :
    (getBestSplits exCtx2 1 1 [0, 1] 0).isSome = true ∧
    ¬ (((getBestSplits exCtx2 1 1 [0, 1] 0).getD (⟨[], []⟩, 0, 0, 0)).1.frontier.length
        = ((getBestSplits exCtx2 1 1 [0, 1] 0).getD (⟨[], []⟩, 0, 0, 0)).2.2.1 + 1) := by
  rw [ex2_run_ns1]
  constructor
  · rfl
  · intro hcontra
    simp [exFinal2T] at hcontra

/-! ### Claim C5 -/

/-- Claim C5 (amended): at each select-expand step the frontier scan returns
an entry of strictly positive gain that is greater than or equal to every
current frontier member's gain and strictly greater than every earlier
member's gain (the first maximizer; on a tie the selected node's gain equals,
rather than strictly exceeds, the other member's); if no member has positive
gain, no node is selected: the step stops and the loop returns the state
unchanged. -/
theorem claim_C5 (ctx : Ctx) (rate : ℚ) (nsp fuel : ℕ) (st : GrowState)
    (ns pos : ℕ) (hlen : st.frontier.length = ns + 1) :
    (∀ kb, findBest st = some kb →
      kb < st.frontier.length ∧
      0 < (st.arena.getD (st.frontier.getD kb 0) default).gain ∧
      (∀ i ∈ st.frontier, (st.arena.getD i default).gain ≤
        (st.arena.getD (st.frontier.getD kb 0) default).gain) ∧
      (∀ p, p < kb → (st.arena.getD (st.frontier.getD p 0) default).gain <
        (st.arena.getD (st.frontier.getD kb 0) default).gain)) ∧
    (findBest st = none →
      growStep ctx rate nsp st ns pos = StepResult.stop st ns pos ∧
      growLoop ctx rate nsp fuel st ns pos = some (st, ns, pos) ∧
      ∀ i ∈ st.frontier, (st.arena.getD i default).gain ≤ 0) := by
  constructor
  · intro kb hkb
    rcases findBest_spec st with ⟨hres, -⟩ | ⟨kb', hres, hlt, hpos, hub, hstrict⟩
    · rw [hres] at hkb
      exact absurd hkb (by simp)
    · rw [hres] at hkb
      injection hkb with hkk
      subst hkk
      exact ⟨hlt, hpos, hub, hstrict⟩
  · intro hnone
    have hstop := growStep_stop_of_none ctx rate nsp st ns pos hlen hnone
    refine ⟨hstop, ?_, ?_⟩
    · rw [growLoop, hstop]
    · rcases findBest_spec st with ⟨-, hle⟩ | ⟨kb, hres, -⟩
      · exact hle
      · rw [hres] at hnone
        exact absurd hnone (by simp)

/-- Witness for C5 (amended) at the concrete post-root state of the eight-row
run: the scan returns position 0 (arena node 1) with gain 1. -/
theorem claim_C5_witness :
    (∀ kb, findBest exState8 = some kb →
      kb < exState8.frontier.length ∧
      0 < (exState8.arena.getD (exState8.frontier.getD kb 0) default).gain ∧
      (∀ i ∈ exState8.frontier, (exState8.arena.getD i default).gain ≤
        (exState8.arena.getD (exState8.frontier.getD kb 0) default).gain) ∧
      (∀ p, p < kb →
        (exState8.arena.getD (exState8.frontier.getD p 0) default).gain <
          (exState8.arena.getD (exState8.frontier.getD kb 0) default).gain)) ∧
    (findBest exState8 = none →
      growStep exCtx8 1 2 exState8 1 3 = StepResult.stop exState8 1 3 ∧
      growLoop exCtx8 1 2 5 exState8 1 3 = some (exState8, 1, 3) ∧
      ∀ i ∈ exState8.frontier, (exState8.arena.getD i default).gain ≤ 0) :=
  claim_C5 exCtx8 1 2 5 exState8 1 3 (by decide)

/-- Counterexample for C5 as stated: at the second select-expand step of the
eight-row run (a reachable state: the first `growStep` produces it), the
chosen frontier entry is arena node 1 with gain 1, while fellow frontier
member node 2 also has gain 1 — the selected node's gain is not strictly
greater than every other current frontier member's gain. -/
theorem claim_C5_counterexample :
    growStep exCtx8 1 2 exRoot8 0 1 = StepResult.next exState8 1 3 ∧
    findBest exState8 = some 0 ∧
    exState8.frontier.getD 0 0 = 1 ∧
    (2 : ℕ) ∈ exState8.frontier ∧ (1 : ℕ) ≠ 2 ∧
    (exState8.arena.getD 1 default).gain = 1 ∧
    (exState8.arena.getD 2 default).gain = 1 ∧
    ¬ ((exState8.arena.getD 2 default).gain <
        (exState8.arena.getD 1 default).gain) ∧
    growStep exCtx8 1 2 exState8 1 3 ≠ StepResult.fail ∧
    (∀ st' ns' pos', growStep exCtx8 1 2 exState8 1 3 ≠ StepResult.stop st' ns' pos') := by
  refine ⟨ex8_step1, ex8_findBest, by decide, by decide, by decide,
    by norm_num [exState8], by norm_num [exState8], by norm_num [exState8], ?_, ?_⟩
  · intro hstep
    rw [ex8_step2] at hstep
    exact absurd hstep (by simp)
  · intro st' ns' pos' hstep
    rw [ex8_step2] at hstep
    exact absurd hstep (by simp)

/-! ### Claim C4 -/

/-- Claim C4 (corrected): on any valid context and any root subset respecting
the entry preconditions, `getBestSplits` terminates normally — no `CHECK`
fires, so the result is `some` — after at most `max(numSplits, 1)`
select-expand iterations (the `do`-`while` body runs at least once, so
`numSplits = 0` still admits one selection); and whenever it stops with fewer
than `numSplits` selections, every remaining frontier candidate has
gain `≤ 0`. -/
theorem claim_C4 (ctx : Ctx) (hv : ValidCtx ctx) (rate : ℚ) (nsp : ℕ)
    (subset : List ℕ) (pos : ℕ)
    (hrows : ∀ id ∈ subset, id < ctx.numExamples) (hsz : ctx.minLeaf ≤ subset.length) :
    ∃ stF nsF posF,
      getBestSplits ctx rate nsp subset pos = some (stF, 0, nsF, posF) ∧
      nsF ≤ max nsp 1 ∧
      (nsF < nsp → ∀ i ∈ stF.frontier, (stF.arena.getD i default).gain ≤ 0) := by
  obtain ⟨stF, nsF, posF, heq, -, -, hb, hd⟩ :=
    getBestSplits_spec ctx hv rate nsp subset pos hrows hsz
  exact ⟨stF, nsF, posF, heq, hb, fun hlt => hd.resolve_right (by omega)⟩

/-- Witness for C4: the corrected statement applied to the concrete two-row
context with `numSplits = 1`, all hypotheses discharged by evaluation. -/
theorem claim_C4_witness :
    ValidCtx exCtx2 ∧ (∀ id ∈ ([0, 1] : List ℕ), id < exCtx2.numExamples) ∧
    exCtx2.minLeaf ≤ ([0, 1] : List ℕ).length ∧
    ∃ stF nsF posF,
      getBestSplits exCtx2 1 1 [0, 1] 0 = some (stF, 0, nsF, posF) ∧
      nsF ≤ max 1 1 ∧
      (nsF < 1 → ∀ i ∈ stF.frontier, (stF.arena.getD i default).gain ≤ 0) :=
  ⟨by unfold ValidCtx; decide, by decide, by decide,
    claim_C4 exCtx2 (by unfold ValidCtx; decide) 1 1 [0, 1] 0 (by decide) (by decide)⟩

/-! ### Claim C4 (counterexample part) -/

/-- Counterexample for C4 as stated: with `numSplits = 0` (i.e. `numLeaves = 1`
via `getTree`) the `do`-`while` body still runs once, so one select-expand
iteration is performed — more than `numSplits`. -/
theorem claim_C4_counterexample :
    (getBestSplits exCtx2 1 0 [0, 1] 0).isSome = true ∧
    ((getBestSplits exCtx2 1 0 [0, 1] 0).getD (⟨[], []⟩, 0, 0, 0)).2.2.1 = 1 ∧
    ¬ (((getBestSplits exCtx2 1 0 [0, 1] 0).getD (⟨[], []⟩, 0, 0, 0)).2.2.1 ≤ 0) := by
  rw [ex2_run_ns0]
  refine ⟨rfl, rfl, by decide⟩

/-! ### Shared facts for the pipeline claims -/

theorem selected_gain_pos_of_inv (ctx : Ctx) (st : GrowState) (hinv : ArenaInv ctx st) :
    ∀ nd ∈ st.arena, nd.selected = true → 0 < nd.gain := by
  intro nd hnd hs
  obtain ⟨n, hn, hget⟩ := List.mem_iff_getElem.mp hnd
  have hgetD : st.arena.getD n default = nd := by
    rw [List.getD_eq_getElem?_getD, List.getElem?_eq_getElem hn, hget]
    rfl
  have hsok := hinv.2.1 n hn
  unfold SelOKAt at hsok
  rw [hgetD] at hsok
  exact (hsok hs).1

theorem ex2_sample : sampleSubset exCtx2 1 0 = ([0, 1], 2) := by
  norm_num [sampleSubset, biasedCoinFlip, exCtx2, List.range, List.range.loop, List.filter]

/-! ### Claim C6 -/

/-- Claim C6: under the entry precondition that the sampled subset holds at
least `min_leaf_examples * numLeaves` rows (with `numLeaves ≥ 1` and a valid
context), every leaf candidate of the final arena — in particular every
candidate the materializer turns into a leaf of the output tree — owns a row
subset of size at least `min_leaf_examples`, and the materializer's `CHECK`
never fails: `getTree` returns a tree. -/
theorem claim_C6 (ctx : Ctx) (hv : ValidCtx ctx) (numLeaves : ℕ)
    (exRate featRate : ℚ) (fimps : ℕ → ℚ) (pos : ℕ)
    (hbig : ctx.minLeaf * numLeaves ≤ (sampleSubset ctx exRate pos).1.length)
    (hL : 1 ≤ numLeaves) :
    ∃ res, getBestSplits ctx featRate (numLeaves - 1) (sampleSubset ctx exRate pos).1
        (sampleSubset ctx exRate pos).2 = some res ∧
      (∀ nd ∈ res.1.arena, nd.selected = false → ctx.minLeaf ≤ nd.subset.length) ∧
      ∃ t fimps',
        getTree ctx numLeaves exRate featRate fimps pos = some (some t, fimps') := by
  obtain ⟨stF, nsF, posF, t, fimps', heq, hinv, htree, hsum⟩ :=
    getTree_spec ctx hv numLeaves exRate featRate fimps pos hbig hL
  refine ⟨(stF, 0, nsF, posF), heq, ?_, t, fimps', htree⟩
  intro nd hnd _
  exact (hinv.1 nd hnd).2.1

/-- Witness for C6: the corrected pipeline applied to the two-row context with
`numLeaves = 2`; the sampled subset is `[0, 1]`, large enough for the entry
`CHECK`. -/
theorem claim_C6_witness :
    ∃ res, getBestSplits exCtx2 1 (2 - 1) (sampleSubset exCtx2 1 0).1
        (sampleSubset exCtx2 1 0).2 = some res ∧
      (∀ nd ∈ res.1.arena, nd.selected = false → exCtx2.minLeaf ≤ nd.subset.length) ∧
      ∃ t fimps', getTree exCtx2 2 1 1 (fun _ => 0) 0 = some (some t, fimps') :=
  claim_C6 exCtx2 (by unfold ValidCtx; decide) 2 1 1 (fun _ => 0) 0
    (by rw [ex2_sample]; decide) (by decide)

/-! ### Claim C8 -/

/-- Claim C8: one completed `getTree` call adds to each feature's importance
entry exactly the sum of the gains of the selected (internal) arena nodes
that split on that feature; every selected node's gain is strictly positive,
and the entry of a feature no internal node splits on is unchanged. -/
theorem claim_C8 (ctx : Ctx) (hv : ValidCtx ctx) (numLeaves : ℕ)
    (exRate featRate : ℚ) (fimps : ℕ → ℚ) (pos : ℕ)
    (hbig : ctx.minLeaf * numLeaves ≤ (sampleSubset ctx exRate pos).1.length)
    (hL : 1 ≤ numLeaves) :
    ∃ stF nsF posF t fimps',
      getBestSplits ctx featRate (numLeaves - 1) (sampleSubset ctx exRate pos).1
        (sampleSubset ctx exRate pos).2 = some (stF, 0, nsF, posF) ∧
      getTree ctx numLeaves exRate featRate fimps pos = some (some t, fimps') ∧
      (∀ f, fimps' f = fimps f + arenaSelGainSum stF.arena f) ∧
      (∀ nd ∈ stF.arena, nd.selected = true → 0 < nd.gain) ∧
      (∀ f : ℕ, stF.arena.filter (fun nd => nd.selected && (nd.fid == (f : ℤ))) = [] →
        fimps' f = fimps f) := by
  obtain ⟨stF, nsF, posF, t, fimps', heq, hinv, htree, hsum⟩ :=
    getTree_spec ctx hv numLeaves exRate featRate fimps pos hbig hL
  refine ⟨stF, nsF, posF, t, fimps', heq, htree, hsum,
    selected_gain_pos_of_inv ctx stF hinv, ?_⟩
  intro f hfil
  rw [hsum f]
  unfold arenaSelGainSum
  rw [hfil]
  simp

/-- Witness for C8: the accounting applied to the two-row context with
`numLeaves = 2`. -/
theorem claim_C8_witness :
    ∃ stF nsF posF t fimps',
      getBestSplits exCtx2 1 (2 - 1) (sampleSubset exCtx2 1 0).1
        (sampleSubset exCtx2 1 0).2 = some (stF, 0, nsF, posF) ∧
      getTree exCtx2 2 1 1 (fun _ => 0) 0 = some (some t, fimps') ∧
      (∀ f, fimps' f = (fun _ => (0 : ℚ)) f + arenaSelGainSum stF.arena f) ∧
      (∀ nd ∈ stF.arena, nd.selected = true → 0 < nd.gain) ∧
      (∀ f : ℕ, stF.arena.filter (fun nd => nd.selected && (nd.fid == (f : ℤ))) = [] →
        fimps' f = (fun _ => (0 : ℚ)) f) :=
  claim_C8 exCtx2 (by unfold ValidCtx; decide) 2 1 1 (fun _ => 0) 0
    (by rw [ex2_sample]; decide) (by decide)

/-! ### Claim C9 -/

/-- Claim C9: on the final grow state, every selected candidate has strictly
positive gain; every candidate with positive gain carries a valid feature id
(`fid ≥ 0`, in range) on which `splitExamples` succeeds, partitioning its
subset at the chosen threshold; and a candidate left at the `fid = -1`
sentinel is never selected — so the sentinel never reaches partitioning or
the internal-node branch of materialization. -/
theorem claim_C9 (ctx : Ctx) (hv : ValidCtx ctx) (rate : ℚ) (nsp : ℕ)
    (subset : List ℕ) (pos : ℕ)
    (hrows : ∀ id ∈ subset, id < ctx.numExamples) (hsz : ctx.minLeaf ≤ subset.length) :
    ∃ res, getBestSplits ctx rate nsp subset pos = some res ∧
      ∀ nd ∈ res.1.arena,
        (nd.selected = true → 0 < nd.gain) ∧
        (0 < nd.gain → 0 ≤ nd.fid ∧ nd.fid.toNat < ctx.features.length ∧
          splitExamples ctx nd = some (splitPair nd.subset
            (featValsOf (ctx.features.getD nd.fid.toNat default)) nd.fv)) ∧
        (nd.fid = -1 → nd.selected = false) := by
  obtain ⟨stF, nsF, posF, heq, hinv, -, -, -⟩ :=
    getBestSplits_spec ctx hv rate nsp subset pos hrows hsz
  refine ⟨(stF, 0, nsF, posF), heq, ?_⟩
  intro nd hnd
  have hselpos := selected_gain_pos_of_inv ctx stF hinv nd hnd
  have hok := hinv.1 nd hnd
  refine ⟨hselpos, ?_, ?_⟩
  · intro hg
    have hposg := hok.2.2.2 hg
    exact ⟨hposg.1, hposg.2.1,
      splitExamples_of_posgain ctx nd hposg.1 hposg.2.1 hposg.2.2.1⟩
  · intro hfid
    cases hsv : nd.selected with
    | false => rfl
    | true =>
      have hg := hselpos hsv
      have hposg := hok.2.2.2 hg
      rw [hfid] at hposg
      exact absurd hposg.1 (by decide)

/-- Witness for C9: the guarantees applied to the two-row context's grow
state. -/
theorem claim_C9_witness :
    ∃ res, getBestSplits exCtx2 1 1 [0, 1] 0 = some res ∧
      ∀ nd ∈ res.1.arena,
        (nd.selected = true → 0 < nd.gain) ∧
        (0 < nd.gain → 0 ≤ nd.fid ∧ nd.fid.toNat < exCtx2.features.length ∧
          splitExamples exCtx2 nd = some (splitPair nd.subset
            (featValsOf (exCtx2.features.getD nd.fid.toNat default)) nd.fv)) ∧
        (nd.fid = -1 → nd.selected = false) :=
  claim_C9 exCtx2 (by unfold ValidCtx; decide) 1 1 [0, 1] 0 (by decide) (by decide)

/-! ### Claim C7 -/

/-- Claim C7: if the randomly sampled row subset built at the start of
`getTree` has size strictly less than `min_leaf_examples * numLeaves`, the
growth call aborts at the `CHECK` (modelled as `none`) and returns no tree. -/
theorem claim_C7 (ctx : Ctx) (numLeaves : ℕ) (exRate featRate : ℚ)
    (fimps : ℕ → ℚ) (pos : ℕ)
    (hsmall : (sampleSubset ctx exRate pos).1.length < ctx.minLeaf * numLeaves) :
    getTree ctx numLeaves exRate featRate fimps pos = none := by
  unfold getTree
  rw [if_pos hsmall]

/-- Witness for C7: with every draw at `RAND_MAX` nothing is sampled, so a
one-leaf request aborts. -/
theorem claim_C7_witness :
    getTree exCtxMax 1 1 1 (fun _ => 0) 0 = none :=
  claim_C7 exCtxMax 1 1 1 (fun _ => 0) 0 (by
    norm_num [sampleSubset, biasedCoinFlip, exCtxMax])

/-! ### Claim C10 -/

/-- Claim C10: `biasedCoinFlip(p)` returns true exactly when the draw
satisfies `rand() < p * RAND_MAX`; for `p = 1.0` it returns false on a draw
equal to `RAND_MAX`, so even at sampling rate 1.0 there are random streams
under which a row is excluded from the sampled subset (here: both rows) or a
feature is skipped during split search (here: the only feature stays at the
`fid = -1` sentinel, while the same dataset under a zero stream selects it). -/
theorem claim_C10 :
    (∀ randMax randVal : ℕ, ∀ p : ℚ,
      biasedCoinFlip randMax randVal p = decide ((randVal : ℚ) < p * (randMax : ℚ))) ∧
    (∀ randMax : ℕ, biasedCoinFlip randMax randMax 1 = false) ∧
    (sampleSubset exCtxMax 1 0).1 = [] ∧
    (0 : ℕ) < exCtxMax.numExamples ∧
    ((getBestSplit exCtxMax 1 false [0, 1] ⟨[], []⟩ 0).1.arena.getD 0 default).fid = -1 ∧
    ((getBestSplit exCtxMax 1 false [0, 1] ⟨[], []⟩ 0).1.arena.getD 0 default).gain = 0 ∧
    ((getBestSplit exCtx2 1 false [0, 1] ⟨[], []⟩ 0).1.arena.getD 0 default).fid = 0 := by
  refine ⟨fun _ _ _ => rfl, ?_, ?_, by decide, ?_, ?_, ?_⟩
  · intro rm
    simp [biasedCoinFlip]
  · norm_num [sampleSubset, biasedCoinFlip, exCtxMax, List.range_succ]
  · norm_num [getBestSplit, scanFeatures, biasedCoinFlip, histFor, buildHistogram,
      bumpHist, emptyHistogram, getBestSplitFromHistogram, gbsLoop, zsOf, lossBefore,
      Histogram.num, toUInt16, featValsOf, exCtxMax, List.foldl]
    decide
  · norm_num [getBestSplit, scanFeatures, biasedCoinFlip, histFor, buildHistogram,
      bumpHist, emptyHistogram, getBestSplitFromHistogram, gbsLoop, zsOf, lossBefore,
      Histogram.num, toUInt16, featValsOf, exCtxMax, List.foldl]
    decide
  · norm_num [getBestSplit, scanFeatures, biasedCoinFlip, histFor, buildHistogram,
      bumpHist, emptyHistogram, getBestSplitFromHistogram, gbsLoop, zsOf, lossBefore,
      Histogram.num, toUInt16, featValsOf, exCtx2, List.foldl]
    decide

end Boosting
